import Mathlib

/-!
# Dice: a seeded `std::minstd_rand` summed through `std::uniform_int_distribution`

Shallow embedding of `code/dice.hpp` and `code/dice.cpp`.

* `Dice::Dice(unsigned int)`, `Dice::Dice()` and `Dice::roll` are translated from
  `dice.cpp`.
* The two standard-library types the class is built on are not part of the
  repository.  `std::minstd_rand` is fixed by ISO C++ ([rand.predef]):
  `linear_congruential_engine<uint_fast32_t, 48271, 0, 2147483647>`.
  `std::uniform_int_distribution<int>` is embedded as the GNU libstdc++
  `operator()` (the general two-division branch, the one taken for an engine
  whose range is neither `2^32 - 1` nor `2^64 - 1`), written over an arbitrary
  engine exactly like the C++ template.
* `int` is 32 bits wide, the distribution's unsigned working type is 64 bits wide.
-/

namespace DiceModel

/-! ## Machine integers -/

/-- Conversion of a mathematical integer to `int`: reduction into
`[-2^31, 2^31 - 1]` (two's complement). -/
def toInt32 (x : Int) : Int := (x + 2147483648) % 4294967296 - 2147483648

/-- Conversion of an integer to the 64-bit unsigned working type. -/
def toU64 (x : Int) : Nat := (x % 18446744073709551616).toNat

/-- Subtraction in the 64-bit unsigned working type. -/
def usub (x y : Nat) : Nat :=
  (x % 18446744073709551616 + 18446744073709551616 - y % 18446744073709551616)
    % 18446744073709551616

/-- Conversion of an integer to `unsigned int`. -/
def toUInt32 (x : Int) : Nat := (x % 4294967296).toNat

/-! ## Uniform random bit generators -/

/-- A uniform random bit generator over the state type `σ`: `call` is
`operator()` (the value produced and the advanced state), `min` and `max` are the
static bounds of the values produced. -/
structure Urbg (σ : Type) where
  call : σ → Nat × σ
  min : Nat
  max : Nat

/-- State of a `std::minstd_rand`: the field `_M_x`. -/
structure MinstdRand where
  x : Nat
  deriving DecidableEq, Repr

/-- Modelled from the spec: the modulus `m` of `std::minstd_rand`, which the
repository takes from the standard library. -/
def modulus : Nat := 2147483647

/-- Modelled from the spec: the multiplier `a` of `std::minstd_rand`, which the
repository takes from the standard library (the increment `c` is `0`). -/
def multiplier : Nat := 48271

/-- Modelled from the spec: `std::minstd_rand::seed(s)`, absent from the
repository.  The seed is reduced modulo `m`, and because the increment is `0` a
zero residue is replaced by `1`. -/
def MinstdRand.seed (s : Nat) : MinstdRand :=
  if s % modulus = 0 then ⟨1⟩ else ⟨s % modulus⟩

/-- Modelled from the spec: one transition of `std::minstd_rand`, absent from the
repository: `x ← a * x mod m`. -/
def MinstdRand.step (g : MinstdRand) : MinstdRand := ⟨(multiplier * g.x) % modulus⟩

/-- Modelled from the spec: `std::minstd_rand::operator()`, absent from the
repository: advance the state and return it. -/
def MinstdRand.next (g : MinstdRand) : Nat × MinstdRand := ((g.step).x, g.step)

/-- The engine `std::minstd_rand` as a uniform random bit generator:
`min() = 1`, `max() = m - 1`. -/
def minstd : Urbg MinstdRand := ⟨MinstdRand.next, 1, modulus - 1⟩

/-- The states a `std::minstd_rand` can be in: `1 ≤ x ≤ m - 1`. -/
def MinstdRand.Valid (g : MinstdRand) : Prop := 1 ≤ g.x ∧ g.x < modulus

instance (g : MinstdRand) : Decidable g.Valid := by
  unfold MinstdRand.Valid; infer_instance

/-! ## `std::uniform_int_distribution<int>::operator()` -/

/-- Modelled from the spec: the rejection loop of the downscaling branch of
`std::uniform_int_distribution`, absent from the repository:
`do ret = uctype(urng()) - urngmin; while (ret >= past);`.
The first argument bounds the number of iterations; `none` is a loop that has not
ended within the bound. -/
def rejectLoop {σ : Type} (E : Urbg σ) (past : Nat) : Nat → σ → Option (Nat × σ)
  | 0, _ => none
  | fuel + 1, s =>
    let ret := usub (E.call s).1 E.min
    if past ≤ ret then rejectLoop E past fuel (E.call s).2
    else some (ret, (E.call s).2)

/-- Modelled from the spec: the loop of the upscaling branch of
`std::uniform_int_distribution`, absent from the repository:
`do { tmp = uerngrange * operator()(urng, param_type(0, urange / uerngrange));
ret = tmp + (uctype(urng()) - urngmin); } while (ret > urange || ret < tmp);`.
`inner` is the recursive `operator()` call. -/
def upscaleLoop {σ : Type} (E : Urbg σ) (inner : σ → Option (Int × σ)) (urange : Nat) :
    Nat → σ → Option (Nat × σ)
  | 0, _ => none
  | fuel + 1, s =>
    match inner s with
    | none => none
    | some (hi, s1) =>
      let uerngrange := (E.max - E.min + 1) % 18446744073709551616
      let tmp := (uerngrange * toU64 hi) % 18446744073709551616
      let ret := (tmp + usub (E.call s1).1 E.min) % 18446744073709551616
      if urange < ret ∨ ret < tmp then upscaleLoop E inner urange fuel (E.call s1).2
      else some (ret, (E.call s1).2)

/-- Modelled from the spec: `std::uniform_int_distribution<int>::operator()` for
the parameters `(a, b)` with `a ≤ b`, absent from the repository.  `fuel` bounds
every loop, the first `Nat` argument bounds the depth of the recursion of the
upscaling branch. -/
def uniformIntAux {σ : Type} (E : Urbg σ) (fuel : Nat) :
    Nat → Int → Int → σ → Option (Int × σ)
  | 0, _, _, _ => none
  | depth + 1, a, b, s =>
    let urngrange := E.max - E.min
    let urange := usub (toU64 b) (toU64 a)
    if urange < urngrange then
      -- downscaling
      let uerange := urange + 1
      let scaling := urngrange / uerange
      let past := uerange * scaling
      match rejectLoop E past fuel s with
      | none => none
      | some (ret, s1) =>
        some (toInt32 (((ret / scaling + toU64 a) % 18446744073709551616 : Nat) : Int), s1)
    else if urngrange < urange then
      -- upscaling
      let uerngrange := (urngrange + 1) % 18446744073709551616
      match upscaleLoop E (uniformIntAux E fuel depth 0 (toInt32 ((urange / uerngrange : Nat) : Int)))
          urange fuel s with
      | none => none
      | some (ret, s1) =>
        some (toInt32 (((ret + toU64 a) % 18446744073709551616 : Nat) : Int), s1)
    else
      let ret := usub (E.call s).1 E.min
      some (toInt32 (((ret + toU64 a) % 18446744073709551616 : Nat) : Int), (E.call s).2)

/-- Bound on the number of iterations of each loop of the distribution: the
modulus of `std::minstd_rand`, one more than its period.  The engine is
deterministic with period `m - 1`, so a loop that has not ended after that many
iterations never ends. -/
def loopBound : Nat := 2147483647

/-- The distribution `std::uniform_int_distribution<int> dist(a, b)` applied to an
engine: `dist(gen)`. -/
def uniformInt {σ : Type} (E : Urbg σ) (a b : Int) (s : σ) : Option (Int × σ) :=
  uniformIntAux E loopBound 64 a b s

/-! ## The class `Dice` -/

/-- The class `Dice`: its only member is the generator `gen`. -/
structure Dice where
  gen : MinstdRand
  deriving DecidableEq, Repr

/-- Constructor `Dice::Dice(unsigned int seed) : gen(seed) {}`: the argument is an
`unsigned int`, the engine is seeded with it. -/
def Dice.ofSeed (seed : Nat) : Dice := ⟨MinstdRand.seed (seed % 4294967296)⟩

/-- Constructor `Dice::Dice()`: delegates to `Dice(unsigned int)` with the tick count of the
system clock, `clock` here, converted to `unsigned int`. -/
def Dice.ofClock (clock : Int) : Dice := Dice.ofSeed (toUInt32 clock)

/-- The loop `for (int i = 0; i < num; i++) sum += dist(gen);` of `Dice::roll`
over a generic engine, with the number of iterations left as first argument.
`sum` is an `int`: the addition is reduced to 32 bits. -/
def rollLoop {σ : Type} (E : Urbg σ) (size : Int) : Nat → Int → σ → Option (Int × σ)
  | 0, sum, g => some (sum, g)
  | n + 1, sum, g =>
    match uniformInt E 1 size g with
    | none => none
    | some (v, g1) => rollLoop E size n (toInt32 (sum + v)) g1

/-- The body of `Dice::roll` over a generic engine.  Constructing the
distribution `dist(1, size)` requires `1 ≤ size`; the loop runs while `i < num`,
that is `num` times for `num ≥ 0` and not at all for `num < 0`. -/
def rollWith {σ : Type} (E : Urbg σ) (num size : Int) (g : σ) : Option (Int × σ) :=
  if size < 1 then none else rollLoop E size num.toNat 0 g

/-- Member `int Dice::roll(int num, int size)`: the value returned and the object after
the call; `none` when the call does not return a value. -/
def Dice.roll (num size : Int) (d : Dice) : Option (Int × Dice) :=
  (rollWith minstd num size d.gen).map (fun r => (r.1, ⟨r.2⟩))

/-- Call `roll()` with the default arguments of the declaration, `num = 1` and
`size = 6`. -/
def Dice.rollDefault (d : Dice) : Option (Int × Dice) := d.roll 1 6

/-- A sequence of calls `roll(num, size)` on one instance, each given as the pair
`(num, size)`: the values returned, in order, and the object after the last call. -/
def Dice.rolls : Dice → List (Int × Int) → Option (List Int × Dice)
  | d, [] => some ([], d)
  | d, c :: rest =>
    match d.roll c.1 c.2 with
    | none => none
    | some (v, d1) =>
      match d1.rolls rest with
      | none => none
      | some (vs, d2) => some (v :: vs, d2)

/-- The states of one instance along a sequence of calls `roll(num, size)`: the
object before the first call and the object after each call, in order. -/
def Dice.history : Dice → List (Int × Int) → Option (List Dice)
  | d, [] => some [d]
  | d, c :: rest =>
    match d.roll c.1 c.2 with
    | none => none
    | some (_, d1) =>
      match d1.history rest with
      | none => none
      | some ds => some (d :: ds)

/-! ## Instrumented engines -/

/-- The engine `E` with a counter of the calls made to it: every call advances `E`
and adds one to the counter. -/
def Urbg.counted {σ : Type} (E : Urbg σ) : Urbg (σ × Nat) :=
  ⟨fun s => ((E.call s.1).1, ((E.call s.1).2, s.2 + 1)), E.min, E.max⟩

/-- Number of engine calls consumed by a sequence of calls `roll(num, size)`: the
code of `roll` run on the counting engine, started with the counter at `s.2`. -/
def engineCalls : MinstdRand × Nat → List (Int × Int) → Option Nat
  | s, [] => some s.2
  | s, c :: rest =>
    match rollWith minstd.counted c.1 c.2 s with
    | none => none
    | some (_, s1) => engineCalls s1 rest

/-- An engine with the bounds of `std::minstd_rand` that replays a given list of
values: its state is the list of the values still to be produced. -/
def scripted : Urbg (List Nat) := ⟨fun s => (s.headD 0, s.tail), 1, 2147483646⟩

/-- One pass of `dist(1, size)` over the engine values `outs`, every loop of the
distribution being allowed a single iteration: the value drawn when the
distribution accepts these engine values, `none` when it rejects them. -/
def attempt (size : Int) (outs : List Nat) : Option Int :=
  (uniformIntAux scripted 1 64 1 size outs).map Prod.fst

/-! ## Specification-side definitions -/

/-- The first `n` values of the sequence of draws of `dist(1, size)` started at the
state `g` of the engine `E`, with the state reached after exactly those `n` draws. -/
def drawSeq {σ : Type} (E : Urbg σ) (size : Int) : Nat → σ → Option (List Int × σ)
  | 0, g => some ([], g)
  | n + 1, g =>
    match uniformInt E 1 size g with
    | none => none
    | some (v, g1) =>
      match drawSeq E size n g1 with
      | none => none
      | some (vs, g2) => some (v :: vs, g2)

/-- The `int` accumulator after adding the values `vs` to `sum` one at a time. -/
def accumulate (sum : Int) (vs : List Int) : Int :=
  vs.foldl (fun acc v => toInt32 (acc + v)) sum

/-! ## Auxiliary definitions for the proofs -/

/-- Square-and-multiply exponentiation modulo `m`; the first `Nat` argument bounds
the number of bits of the exponent. -/
def powMod (m : Nat) : Nat → Nat → Nat → Nat
  | 0, _, _ => 1 % m
  | f + 1, b, e =>
    if e = 0 then 1 % m
    else if e % 2 = 1 then (b * powMod m f ((b * b) % m) (e / 2)) % m
    else powMod m f ((b * b) % m) (e / 2)

/-- The state transition of an engine: the state after one call. -/
def Urbg.advance {σ : Type} (E : Urbg σ) (s : σ) : σ := (E.call s).2

/-- The computation `f`, run on the counting engine from the counter value given,
behaves like a computation with outcome `r` on the plain engine started at `s`:
same value, same final state, reached by exactly `k` engine calls. -/
def Simulates {σ α : Type} (E : Urbg σ) (s : σ) (k : Nat) (r : Option (α × σ))
    (f : Nat → Option (α × (σ × Nat))) : Prop :=
  (∀ c, f c = r.map (fun x => (x.1, (x.2, c + k)))) ∧
    (∀ x, r = some x → x.2 = E.advance^[k] s)

/-! ## Number theory of the engine: `m` is prime and `a` is a primitive root -/

theorem powMod_eq (m : Nat) : ∀ (f b e : Nat), e < 2 ^ f → powMod m f b e = b ^ e % m := by
  intro f
  induction f with
  | zero =>
    intro b e he
    have : e = 0 := by simpa using he
    subst this
    simp [powMod]
  | succ f ih =>
    intro b e he
    unfold powMod
    by_cases h0 : e = 0
    · simp [h0]
    · have hlt : e / 2 < 2 ^ f := by
        rw [Nat.div_lt_iff_lt_mul (by norm_num)]
        calc e < 2 ^ (f + 1) := he
          _ = 2 ^ f * 2 := by ring
      have hsq : ((b * b) % m) ^ (e / 2) % m = (b ^ 2) ^ (e / 2) % m := by
        rw [← Nat.pow_mod, pow_two]
      rw [if_neg h0, ih _ _ hlt, hsq, ← pow_mul]
      by_cases h1 : e % 2 = 1
      · rw [if_pos h1]
        have he2 : e = 2 * (e / 2) + 1 := by omega
        conv_rhs => rw [he2, pow_succ, mul_comm]
        rw [Nat.mul_mod_mod]
      · rw [if_neg h1]
        have he2 : e = 2 * (e / 2) := by omega
        conv_rhs => rw [he2]

theorem prime_dvd_period {q : Nat} (hq : q.Prime) (h : q ∣ 2147483646) :
    q = 2 ∨ q = 3 ∨ q = 7 ∨ q = 11 ∨ q = 31 ∨ q = 151 ∨ q = 331 := by
  have hf : (2147483646 : Nat) = 2 * (3 * (3 * (7 * (11 * (31 * (151 * 331)))))) := by norm_num
  rw [hf] at h
  have p2 : Nat.Prime 2 := by norm_num
  have p3 : Nat.Prime 3 := by norm_num
  have p7 : Nat.Prime 7 := by norm_num
  have p11 : Nat.Prime 11 := by norm_num
  have p31 : Nat.Prime 31 := by norm_num
  have p151 : Nat.Prime 151 := by norm_num
  have p331 : Nat.Prime 331 := by norm_num
  rcases (Nat.Prime.dvd_mul hq).1 h with h | h
  · exact Or.inl ((Nat.prime_dvd_prime_iff_eq hq p2).1 h)
  rcases (Nat.Prime.dvd_mul hq).1 h with h | h
  · exact Or.inr (Or.inl ((Nat.prime_dvd_prime_iff_eq hq p3).1 h))
  rcases (Nat.Prime.dvd_mul hq).1 h with h | h
  · exact Or.inr (Or.inl ((Nat.prime_dvd_prime_iff_eq hq p3).1 h))
  rcases (Nat.Prime.dvd_mul hq).1 h with h | h
  · exact Or.inr (Or.inr (Or.inl ((Nat.prime_dvd_prime_iff_eq hq p7).1 h)))
  rcases (Nat.Prime.dvd_mul hq).1 h with h | h
  · exact Or.inr (Or.inr (Or.inr (Or.inl ((Nat.prime_dvd_prime_iff_eq hq p11).1 h))))
  rcases (Nat.Prime.dvd_mul hq).1 h with h | h
  · exact Or.inr (Or.inr (Or.inr (Or.inr (Or.inl ((Nat.prime_dvd_prime_iff_eq hq p31).1 h)))))
  rcases (Nat.Prime.dvd_mul hq).1 h with h | h
  · exact Or.inr (Or.inr (Or.inr (Or.inr (Or.inr (Or.inl ((Nat.prime_dvd_prime_iff_eq hq p151).1 h))))))
  · exact Or.inr (Or.inr (Or.inr (Or.inr (Or.inr (Or.inr ((Nat.prime_dvd_prime_iff_eq hq p331).1 h))))))

theorem zmod_pow (e : Nat) (he : e < 2 ^ 32) :
    ((multiplier : ZMod modulus) ^ e = 1) ↔ powMod modulus 32 multiplier e = 1 := by
  rw [powMod_eq _ _ _ _ he]
  have h1 : ((multiplier : ZMod modulus) ^ e) = ((multiplier ^ e : Nat) : ZMod modulus) := by
    push_cast; rfl
  rw [h1]
  have h2 : (1 : ZMod modulus) = ((1 : Nat) : ZMod modulus) := by simp
  rw [h2, ZMod.natCast_eq_natCast_iff']
  simp [modulus]

theorem multiplier_pow_period : (multiplier : ZMod modulus) ^ (modulus - 1) = 1 := by
  rw [zmod_pow _ (by decide)]
  decide

theorem multiplier_pow_div (q : Nat) (hq : q.Prime) (hd : q ∣ modulus - 1) :
    (multiplier : ZMod modulus) ^ ((modulus - 1) / q) ≠ 1 := by
  have h := prime_dvd_period hq (by simpa [modulus] using hd)
  rcases h with h | h | h | h | h | h | h <;> subst h <;>
    (rw [Ne, zmod_pow _ (by decide)]; decide)

theorem modulus_prime : Nat.Prime modulus :=
  lucas_primality modulus multiplier multiplier_pow_period multiplier_pow_div

theorem orderOf_multiplier : orderOf (multiplier : ZMod modulus) = modulus - 1 :=
  orderOf_eq_of_pow_and_pow_div_prime (by decide) multiplier_pow_period multiplier_pow_div


/-- The multiplier is coprime to the modulus. -/
theorem multiplier_coprime : Nat.Coprime multiplier modulus :=
  (Nat.coprime_primes (by norm_num [multiplier]) modulus_prime).2 (by decide)

theorem orderOf_multUnit :
    orderOf (ZMod.unitOfCoprime multiplier multiplier_coprime) = modulus - 1 := by
  rw [← orderOf_multiplier]
  exact (orderOf_injective (Units.coeHom _) Units.ext
    (ZMod.unitOfCoprime multiplier multiplier_coprime)).symm

theorem multUnit_generates (y : (ZMod modulus)ˣ) :
    ∃ k, k < modulus - 1 ∧ (ZMod.unitOfCoprime multiplier multiplier_coprime) ^ k = y := by
  classical
  haveI : Fact (Nat.Prime modulus) := ⟨modulus_prime⟩
  have hcard : Fintype.card (ZMod modulus)ˣ = modulus - 1 := ZMod.card_units modulus
  have huniv : ((Subgroup.zpowers (ZMod.unitOfCoprime multiplier multiplier_coprime) :
      Subgroup (ZMod modulus)ˣ) : Set (ZMod modulus)ˣ) = Set.univ := by
    apply Set.eq_of_subset_of_card_le (Set.subset_univ _)
    rw [← Nat.card_eq_fintype_card, ← Nat.card_eq_fintype_card,
      Nat.card_congr (Equiv.Set.univ _), Nat.card_eq_fintype_card, hcard]
    have h := Nat.card_zpowers (ZMod.unitOfCoprime multiplier multiplier_coprime)
    rw [orderOf_multUnit] at h
    exact le_of_eq h.symm
  have hy : y ∈ Subgroup.zpowers (ZMod.unitOfCoprime multiplier multiplier_coprime) := by
    have : y ∈ ((Subgroup.zpowers (ZMod.unitOfCoprime multiplier multiplier_coprime) :
        Subgroup (ZMod modulus)ˣ) : Set (ZMod modulus)ˣ) := by
      rw [huniv]; trivial
    exact this
  rw [mem_zpowers_iff_mem_range_orderOf, orderOf_multUnit] at hy
  obtain ⟨k, hk, hky⟩ := Finset.mem_image.1 hy
  exact ⟨k, Finset.mem_range.1 hk, hky⟩

theorem multUnit_pow_inj {i j : Nat}
    (h : (ZMod.unitOfCoprime multiplier multiplier_coprime) ^ i
      = (ZMod.unitOfCoprime multiplier multiplier_coprime) ^ j) :
    i ≡ j [MOD modulus - 1] := by
  rw [← orderOf_multUnit]
  exact pow_eq_pow_iff_modEq.1 h

/-! ## The orbit of the engine -/

theorem MinstdRand.valid_step {g : MinstdRand} (h : g.Valid) : g.step.Valid := by
  have hp := modulus_prime
  refine ⟨?_, Nat.mod_lt _ hp.pos⟩
  show 1 ≤ (multiplier * g.x) % modulus
  rw [Nat.one_le_iff_ne_zero]
  intro h0
  have hd : modulus ∣ multiplier * g.x := Nat.dvd_of_mod_eq_zero h0
  rcases (Nat.Prime.dvd_mul hp).1 hd with h1 | h1
  · have := Nat.le_of_dvd (by decide) h1
    simp [modulus, multiplier] at this
  · have := Nat.le_of_dvd h.1 h1
    exact absurd h.2 (not_lt.2 this)

theorem MinstdRand.valid_iterate {g : MinstdRand} (h : g.Valid) (k : Nat) :
    (MinstdRand.step^[k] g).Valid := by
  induction k with
  | zero => simpa using h
  | succ k ih => rw [Function.iterate_succ_apply']; exact MinstdRand.valid_step ih

theorem MinstdRand.iterate_x {g : MinstdRand} (h : g.Valid) (k : Nat) :
    (MinstdRand.step^[k] g).x = (multiplier ^ k * g.x) % modulus := by
  induction k with
  | zero => simp [Nat.mod_eq_of_lt h.2]
  | succ k ih =>
    rw [Function.iterate_succ_apply']
    show (multiplier * (MinstdRand.step^[k] g).x) % modulus = _
    rw [ih, Nat.mul_mod_mod, pow_succ]
    congr 1; ring

theorem MinstdRand.cast_ne_zero {g : MinstdRand} (h : g.Valid) :
    ((g.x : Nat) : ZMod modulus) ≠ 0 := by
  rw [Ne, ZMod.natCast_zmod_eq_zero_iff_dvd]
  intro hd
  exact absurd h.2 (not_lt.2 (Nat.le_of_dvd h.1 hd))

/-- Two points of the orbit of a valid state coincide only at step counts
congruent modulo the period `m - 1`. -/
theorem MinstdRand.iterate_inj {g : MinstdRand} (h : g.Valid) {i j : Nat}
    (hij : MinstdRand.step^[i] g = MinstdRand.step^[j] g) : i ≡ j [MOD modulus - 1] := by
  haveI : Fact (Nat.Prime modulus) := ⟨modulus_prime⟩
  have hx : (MinstdRand.step^[i] g).x = (MinstdRand.step^[j] g).x := by rw [hij]
  rw [MinstdRand.iterate_x h, MinstdRand.iterate_x h] at hx
  have hz : ((multiplier ^ i * g.x : Nat) : ZMod modulus) = ((multiplier ^ j * g.x : Nat) : ZMod modulus) :=
    (ZMod.natCast_eq_natCast_iff' _ _ _).2 hx
  push_cast at hz
  have hc := mul_right_cancel₀ (MinstdRand.cast_ne_zero h) hz
  apply multUnit_pow_inj
  apply Units.ext
  simpa using hc

/-- The orbit of a valid state reaches the state `1` after at least one and at most
`m - 1` steps. -/
theorem MinstdRand.iterate_hits_one {g : MinstdRand} (h : g.Valid) :
    ∃ k, 1 ≤ k ∧ k ≤ modulus - 1 ∧ MinstdRand.step^[k] g = ⟨1⟩ := by
  haveI : Fact (Nat.Prime modulus) := ⟨modulus_prime⟩
  obtain ⟨k, hk, hky⟩ := multUnit_generates (Units.mk0 _ (MinstdRand.cast_ne_zero h))⁻¹
  have hval : (multiplier : ZMod modulus) ^ k * (g.x : ZMod modulus) = 1 := by
    have := congrArg (fun u : (ZMod modulus)ˣ => (u : ZMod modulus) * (g.x : ZMod modulus)) hky
    simpa [MinstdRand.cast_ne_zero h] using this
  have key : ∀ n, (multiplier : ZMod modulus) ^ n * (g.x : ZMod modulus) = 1 →
      MinstdRand.step^[n] g = ⟨1⟩ := by
    intro n hn
    have hx := MinstdRand.iterate_x h n
    have h1 : ((multiplier ^ n * g.x : Nat) : ZMod modulus) = ((1 : Nat) : ZMod modulus) := by
      push_cast; exact hn
    rw [ZMod.natCast_eq_natCast_iff'] at h1
    rw [h1] at hx
    cases hg : MinstdRand.step^[n] g with
    | mk x => rw [hg] at hx; simp at hx; rw [hx]; rfl
  rcases Nat.eq_zero_or_pos k with h0 | hpos
  · subst h0
    refine ⟨modulus - 1, by decide, le_refl _, key _ ?_⟩
    rw [multiplier_pow_period]
    simpa using hval
  · exact ⟨k, hpos, le_of_lt hk, key _ hval⟩

/-! ## Machine arithmetic on values in range -/

theorem usub_of_le {x y : Nat} (hy : y ≤ x) (hx : x < 18446744073709551616) :
    usub x y = x - y := by
  unfold usub; omega

theorem toU64_of_nonneg {x : Int} (h0 : 0 ≤ x) (hx : x < 18446744073709551616) :
    toU64 x = x.toNat := by
  unfold toU64; omega

theorem toInt32_of_range {x : Int} (h0 : -2147483648 ≤ x) (hx : x ≤ 2147483647) :
    toInt32 x = x := by
  unfold toInt32; omega

/-! ## Unfolding the distribution -/

theorem minstd_call (g : MinstdRand) : minstd.call g = (g.step.x, g.step) := rfl

theorem minstd_min : minstd.min = 1 := rfl

theorem minstd_max : minstd.max = 2147483646 := rfl

theorem uniformIntAux_down {σ : Type} (E : Urbg σ) (fuel depth : Nat) (a b : Int) (s : σ)
    (h : usub (toU64 b) (toU64 a) < E.max - E.min) :
    uniformIntAux E fuel (depth + 1) a b s =
      (rejectLoop E ((usub (toU64 b) (toU64 a) + 1)
          * ((E.max - E.min) / (usub (toU64 b) (toU64 a) + 1))) fuel s).map
        (fun r => (toInt32 (((r.1 / ((E.max - E.min) / (usub (toU64 b) (toU64 a) + 1))
          + toU64 a) % 18446744073709551616 : Nat) : Int), r.2)) := by
  unfold uniformIntAux
  simp only [h, if_true]
  cases rejectLoop E ((usub (toU64 b) (toU64 a) + 1)
          * ((E.max - E.min) / (usub (toU64 b) (toU64 a) + 1))) fuel s <;> rfl

theorem uniformIntAux_up {σ : Type} (E : Urbg σ) (fuel depth : Nat) (a b : Int) (s : σ)
    (h : E.max - E.min < usub (toU64 b) (toU64 a)) :
    uniformIntAux E fuel (depth + 1) a b s =
      (upscaleLoop E (uniformIntAux E fuel depth 0
          (toInt32 ((usub (toU64 b) (toU64 a) / ((E.max - E.min + 1) % 18446744073709551616)
            : Nat) : Int)))
          (usub (toU64 b) (toU64 a)) fuel s).map
        (fun r => (toInt32 (((r.1 + toU64 a) % 18446744073709551616 : Nat) : Int), r.2)) := by
  unfold uniformIntAux
  have h1 : ¬ usub (toU64 b) (toU64 a) < E.max - E.min := by omega
  simp only [h, h1, if_true, if_false]
  cases upscaleLoop E (uniformIntAux E fuel depth 0
          (toInt32 ((usub (toU64 b) (toU64 a) / ((E.max - E.min + 1) % 18446744073709551616)
            : Nat) : Int)))
          (usub (toU64 b) (toU64 a)) fuel s <;> rfl

theorem uniformIntAux_direct {σ : Type} (E : Urbg σ) (fuel depth : Nat) (a b : Int) (s : σ)
    (h : E.max - E.min = usub (toU64 b) (toU64 a)) :
    uniformIntAux E fuel (depth + 1) a b s =
      some (toInt32 (((usub (E.call s).1 E.min + toU64 a) % 18446744073709551616 : Nat) : Int),
        (E.call s).2) := by
  unfold uniformIntAux
  have h1 : ¬ usub (toU64 b) (toU64 a) < E.max - E.min := by omega
  have h2 : ¬ E.max - E.min < usub (toU64 b) (toU64 a) := by omega
  simp only [h1, h2, if_false]

/-! ## Termination of the rejection loop on `std::minstd_rand` -/

/-- If the `k`-th value produced from `g` is accepted, the rejection loop ends at
the first accepted value, which comes no later than the `k`-th. -/
theorem rejectLoop_minstd (past : Nat) : ∀ (k fuel : Nat) (g : MinstdRand),
    1 ≤ k → k ≤ fuel → g.Valid → (MinstdRand.step^[k] g).x - 1 < past →
    ∃ j, 1 ≤ j ∧ j ≤ k ∧ (MinstdRand.step^[j] g).x - 1 < past ∧
      rejectLoop minstd past fuel g
        = some ((MinstdRand.step^[j] g).x - 1, MinstdRand.step^[j] g) := by
  intro k
  induction k with
  | zero => intro fuel g h; omega
  | succ k ih =>
    intro fuel g _ hf hg hit
    obtain ⟨f, rfl⟩ : ∃ f, fuel = f + 1 := ⟨fuel - 1, by omega⟩
    have hv := MinstdRand.valid_step hg
    have hret : usub (minstd.call g).1 minstd.min = g.step.x - 1 := by
      rw [minstd_call, minstd_min]
      exact usub_of_le hv.1 (lt_trans hv.2 (by decide))
    unfold rejectLoop
    simp only [hret]
    by_cases hp : past ≤ g.step.x - 1
    · rw [if_pos hp]
      have hk : 1 ≤ k := by
        rcases Nat.eq_zero_or_pos k with h0 | h0
        · subst h0
          simp only [zero_add, Function.iterate_one] at hit
          omega
        · exact h0
      rw [Function.iterate_succ_apply] at hit
      obtain ⟨j, hj1, hjk, hlt, heq⟩ := ih f g.step hk (by omega) hv hit
      refine ⟨j + 1, by omega, by omega, ?_, ?_⟩
      · rw [Function.iterate_succ_apply]; exact hlt
      · rw [Function.iterate_succ_apply]; exact heq
    · rw [if_neg hp]
      exact ⟨1, le_refl _, by omega, by simpa using hp, by simp [minstd_call]⟩

/-- On a valid state the rejection loop with a positive acceptance bound ends
within the loop bound. -/
theorem rejectLoop_minstd_terminates {past : Nat} (hpast : 0 < past) {g : MinstdRand}
    (hg : g.Valid) :
    ∃ j, 1 ≤ j ∧ j ≤ modulus - 1 ∧ (MinstdRand.step^[j] g).x - 1 < past ∧
      rejectLoop minstd past loopBound g
        = some ((MinstdRand.step^[j] g).x - 1, MinstdRand.step^[j] g) := by
  obtain ⟨k, hk1, hkm, hk⟩ := MinstdRand.iterate_hits_one hg
  obtain ⟨j, hj1, hjk, hlt, heq⟩ :=
    rejectLoop_minstd past k loopBound g hk1 (le_trans hkm (by decide)) hg (by rw [hk]; exact hpast)
  exact ⟨j, hj1, le_trans hjk hkm, hlt, heq⟩


/-! ## A single draw of `dist(1, size)` on `std::minstd_rand` -/

theorem draw_down {size : Int} (h1 : 1 ≤ size) (h2 : size ≤ 2147483645) {g : MinstdRand}
    (hg : g.Valid) :
    ∃ j v, 1 ≤ j ∧ j ≤ modulus - 1 ∧ 1 ≤ v ∧ v ≤ size ∧
      uniformInt minstd 1 size g = some (v, MinstdRand.step^[j] g) := by
  obtain ⟨n, rfl⟩ : ∃ n : Nat, size = (n : Int) := ⟨size.toNat, by omega⟩
  have hn1 : 1 ≤ n := by omega
  have hn2 : n ≤ 2147483645 := by omega
  have hur : usub (toU64 (n : Int)) (toU64 1) = n - 1 := by
    rw [toU64_of_nonneg (by omega) (by omega), toU64_of_nonneg (by omega) (by omega)]
    simp only [Int.toNat_ofNat, Int.toNat_one]
    exact usub_of_le hn1 (by omega)
  have hsc : 0 < 2147483645 / n := Nat.div_pos hn2 (by omega)
  have hpast : 0 < n * (2147483645 / n) := Nat.mul_pos (by omega) hsc
  obtain ⟨j, hj1, hjm, hlt, heq⟩ := rejectLoop_minstd_terminates hpast hg
  have hq : ((MinstdRand.step^[j] g).x - 1) / (2147483645 / n) < n :=
    Nat.div_lt_of_lt_mul (by rw [Nat.mul_comm]; exact hlt)
  have key : ∀ q : Nat, q < n →
      toInt32 (((q + 1) % 18446744073709551616 : Nat) : Int) = ((q + 1 : Nat) : Int) := by
    intro q hq
    rw [Nat.mod_eq_of_lt (by omega), toInt32_of_range (by omega) (by omega)]
  have hb : ∀ q : Nat, q < n → (1 : Int) ≤ ((q + 1 : Nat) : Int) ∧
      ((q + 1 : Nat) : Int) ≤ (n : Int) := by
    intro q hq; omega
  refine ⟨j, ((((MinstdRand.step^[j] g).x - 1) / (2147483645 / n) + 1 : Nat) : Int),
    hj1, hjm, (hb _ hq).1, (hb _ hq).2, ?_⟩
  unfold uniformInt
  rw [uniformIntAux_down _ _ _ _ _ _ (by rw [hur, minstd_max, minstd_min]; omega)]
  rw [hur, minstd_max, minstd_min]
  have e1 : n - 1 + 1 = n := by omega
  have e2 : 2147483646 - 1 = 2147483645 := by norm_num
  rw [e1, e2, heq]
  simp only [Option.map_some', toU64_of_nonneg (show (0 : Int) ≤ 1 by decide) (by decide),
    Int.toNat_one]
  rw [key _ hq]

theorem draw_direct {g : MinstdRand} (hg : g.Valid) :
    ∃ j v, 1 ≤ j ∧ j ≤ modulus - 1 ∧ 1 ≤ v ∧ v ≤ 2147483646 ∧
      uniformInt minstd 1 2147483646 g = some (v, MinstdRand.step^[j] g) := by
  have hv := MinstdRand.valid_step hg
  have hm : modulus = 2147483647 := rfl
  refine ⟨1, (g.step.x : Int), le_refl _, by decide, by have := hv.1; omega,
    by have := hv.2; omega, ?_⟩
  unfold uniformInt
  rw [uniformIntAux_direct _ _ _ _ _ _ (by decide)]
  rw [minstd_call, minstd_min, usub_of_le hv.1 (by have := hv.2; omega)]
  simp only [toU64_of_nonneg (show (0 : Int) ≤ 1 by decide) (by decide), Int.toNat_one,
    Function.iterate_one]
  have := hv.1
  have := hv.2
  rw [Nat.mod_eq_of_lt (by omega), toInt32_of_range (by omega) (by omega)]
  congr 2
  omega


/-- The recursive call made by the upscaling branch for `size = 2147483647`: a draw
from `[0, 1]`, which takes the downscaling branch. -/
theorem inner_eq (s : MinstdRand) :
    uniformIntAux minstd loopBound 63 0 1 s
      = (rejectLoop minstd 2147483644 loopBound s).map
        (fun r => (toInt32 (((r.1 / 1073741822 + 0) % 18446744073709551616 : Nat) : Int),
          r.2)) := by
  rw [uniformIntAux_down _ _ _ _ _ _ (by decide)]
  rfl

theorem toU64_high (r : Nat) (hr : r < 2147483644) :
    toU64 (toInt32 (((r / 1073741822 + 0) % 18446744073709551616 : Nat) : Int))
      = r / 1073741822 := by
  have h : r / 1073741822 ≤ 1 := by omega
  generalize r / 1073741822 = q at h
  rw [Nat.add_zero, Nat.mod_eq_of_lt (by omega)]
  unfold toU64 toInt32
  omega

theorem upscaleLoop_minstd (inner : MinstdRand → Option (Int × MinstdRand))
    (hinner : ∀ s, inner s = (rejectLoop minstd 2147483644 loopBound s).map
        (fun r => (toInt32 (((r.1 / 1073741822 + 0) % 18446744073709551616 : Nat) : Int),
          r.2))) :
    ∀ (k fuel : Nat) (g : MinstdRand), k ≤ modulus - 1 → k < fuel → g.Valid →
      MinstdRand.step^[k] g = ⟨1⟩ →
      ∃ j ret, 1 ≤ j ∧ ret ≤ 2147483646 ∧
        upscaleLoop minstd inner 2147483646 fuel g = some (ret, MinstdRand.step^[j] g) := by
  intro k
  induction k using Nat.strong_induction_on with
  | _ k ih =>
    intro fuel g hkm hkf hg hk
    obtain ⟨f, rfl⟩ : ∃ f, fuel = f + 1 := ⟨fuel - 1, by omega⟩
    have hm : modulus = 2147483647 := rfl
    have hlb : loopBound = 2147483647 := rfl
    have hK : ∃ K, 1 ≤ K ∧ K ≤ loopBound ∧ (k ≠ 0 → K = k) ∧ (k = 0 → K = 1) ∧
        (MinstdRand.step^[K] g).x - 1 < 1073741822 := by
      rcases Nat.eq_zero_or_pos k with h0 | h0
      · subst h0
        refine ⟨1, le_refl _, by omega, fun h => absurd rfl h, fun _ => rfl, ?_⟩
        simp only [Function.iterate_zero, id] at hk
        subst hk; decide
      · refine ⟨k, h0, by omega, fun _ => rfl, fun h => by omega, ?_⟩
        rw [hk]; decide
    obtain ⟨K, hK1, hKb, hKk, hK0, hKx⟩ := hK
    obtain ⟨j, hj1, hjK, hlt, heq⟩ :=
      rejectLoop_minstd 2147483644 K loopBound g hK1 hKb hg (by omega)
    have hg1 := MinstdRand.valid_iterate hg j
    have hg2 := MinstdRand.valid_step hg1
    unfold upscaleLoop
    rw [hinner, heq]
    simp only [Option.map_some', minstd_call, minstd_min, minstd_max]
    rw [usub_of_le hg2.1 (by have := hg2.2; omega)]
    have hlow : (MinstdRand.step^[j] g).step.x - 1 ≤ 2147483645 := by have := hg2.2; omega
    rw [toU64_high _ hlt]
    have hnext : (MinstdRand.step^[j] g).step = MinstdRand.step^[j + 1] g := by
      rw [Function.iterate_succ_apply']
    have e0 : (2147483646 - 1 + 1) % 18446744073709551616 = 2147483646 := by norm_num
    have t0 : 2147483646 * 0 % 18446744073709551616 = 0 := by norm_num
    have t1 : 2147483646 * 1 % 18446744073709551616 = 2147483646 := by norm_num
    rw [e0]
    generalize hl : (MinstdRand.step^[j] g).step.x - 1 = low at hlow
    have m0 : (0 + low) % 18446744073709551616 = low := by
      rw [Nat.zero_add, Nat.mod_eq_of_lt (by omega)]
    have m1 : (2147483646 + low) % 18446744073709551616 = 2147483646 + low :=
      Nat.mod_eq_of_lt (by omega)
    rcases (show ((MinstdRand.step^[j] g).x - 1) / 1073741822 = 0 ∨
        ((MinstdRand.step^[j] g).x - 1) / 1073741822 = 1 by omega) with h0 | h1
    · rw [h0, t0, m0]
      refine ⟨j + 1, low, by omega, by omega, ?_⟩
      rw [if_neg (by omega), hnext]
    · rw [h1, t1, m1]
      by_cases hz : low = 0
      · refine ⟨j + 1, 2147483646, by omega, Nat.le_refl _, ?_⟩
        rw [if_neg (by omega), hnext, hz]
      · rw [if_pos (by omega)]
        have hjK' : j ≠ K := by
          intro h; subst h; omega
        have hk0 : k ≠ 0 := by
          intro h
          have := hK0 h
          omega
        have hKeq := hKk hk0
        subst hKeq
        have hjk : j + 1 ≤ K := by omega
        obtain ⟨j2, ret, hj2, hret, heq2⟩ := ih (K - (j + 1)) (by omega) f
          (MinstdRand.step^[j] g).step (by omega) (by omega) hg2 (by
            rw [hnext, ← Function.iterate_add_apply]
            rw [show K - (j + 1) + (j + 1) = K by omega]
            exact hk)
        refine ⟨j2 + (j + 1), ret, by omega, hret, ?_⟩
        rw [heq2, hnext, ← Function.iterate_add_apply]

theorem draw_up {g : MinstdRand} (hg : g.Valid) :
    ∃ j v, 1 ≤ j ∧ 1 ≤ v ∧ v ≤ 2147483647 ∧
      uniformInt minstd 1 2147483647 g = some (v, MinstdRand.step^[j] g) := by
  obtain ⟨k, _, hkm, hk⟩ := MinstdRand.iterate_hits_one hg
  have hm : modulus = 2147483647 := rfl
  have hlb : loopBound = 2147483647 := rfl
  have hur : usub (toU64 2147483647) (toU64 1) = 2147483646 := by decide
  have hpar : toInt32 ((2147483646 / ((minstd.max - minstd.min + 1) % 18446744073709551616)
      : Nat) : Int) = 1 := by decide
  obtain ⟨j, ret, hj, hret, heq⟩ := upscaleLoop_minstd
    (uniformIntAux minstd loopBound 63 0 1) inner_eq k loopBound g hkm (by omega) hg hk
  have hv : toInt32 (((ret + toU64 1) % 18446744073709551616 : Nat) : Int)
      = ((ret + 1 : Nat) : Int) := by
    rw [toU64_of_nonneg (show (0 : Int) ≤ 1 by decide) (by decide), Int.toNat_one,
      Nat.mod_eq_of_lt (by omega), toInt32_of_range (by omega) (by omega)]
  refine ⟨j, ((ret + 1 : Nat) : Int), hj, by omega, by omega, ?_⟩
  unfold uniformInt
  rw [uniformIntAux_up _ _ _ _ _ _ (by rw [hur]; decide), hur, hpar, heq]
  simp only [Option.map_some', hv]

/-- A draw of `dist(1, size)` on a valid engine state returns a value of
`[1, size]` and leaves the engine at least one step further along its orbit. -/
theorem draw_spec {size : Int} (h1 : 1 ≤ size) (h2 : size ≤ 2147483647) {g : MinstdRand}
    (hg : g.Valid) :
    ∃ j v, 1 ≤ j ∧ 1 ≤ v ∧ v ≤ size ∧
      uniformInt minstd 1 size g = some (v, MinstdRand.step^[j] g) := by
  rcases (show size ≤ 2147483645 ∨ size = 2147483646 ∨ size = 2147483647 by omega)
    with h | h | h
  · obtain ⟨j, v, hj, _, hv1, hv2, heq⟩ := draw_down h1 h hg
    exact ⟨j, v, hj, hv1, hv2, heq⟩
  · subst h
    obtain ⟨j, v, hj, _, hv1, hv2, heq⟩ := draw_direct hg
    exact ⟨j, v, hj, hv1, hv2, heq⟩
  · subst h
    exact draw_up hg

/-! ## The loop of `Dice::roll` -/

theorem MinstdRand.seed_valid (s : Nat) : (MinstdRand.seed s).Valid := by
  unfold MinstdRand.seed MinstdRand.Valid
  have hm : modulus = 2147483647 := rfl
  by_cases h : s % modulus = 0
  · rw [if_pos h]; simp [hm]
  · rw [if_neg h]
    exact ⟨Nat.one_le_iff_ne_zero.2 h, Nat.mod_lt _ (by rw [hm]; norm_num)⟩

theorem Dice.ofSeed_valid (seed : Nat) : (Dice.ofSeed seed).gen.Valid :=
  MinstdRand.seed_valid _

theorem rollLoop_succ {σ : Type} (E : Urbg σ) (size : Int) (n : Nat) (sum : Int) (g : σ) :
    rollLoop E size (n + 1) sum g
      = (uniformInt E 1 size g).bind
        (fun r => rollLoop E size n (toInt32 (sum + r.1)) r.2) := by
  rw [rollLoop]
  cases uniformInt E 1 size g with
  | none => rfl
  | some r => obtain ⟨v, g1⟩ := r; rfl

theorem drawSeq_succ {σ : Type} (E : Urbg σ) (size : Int) (n : Nat) (g : σ) :
    drawSeq E size (n + 1) g
      = (uniformInt E 1 size g).bind
        (fun r => (drawSeq E size n r.2).map (fun t => (r.1 :: t.1, t.2))) := by
  rw [drawSeq]
  cases uniformInt E 1 size g with
  | none => rfl
  | some r =>
    obtain ⟨v, g1⟩ := r
    simp only [Option.some_bind]
    cases drawSeq E size n g1 with
    | none => rfl
    | some t => obtain ⟨vs, g2⟩ := t; rfl

/-- The loop of `roll` adds up, in the `int` accumulator, the values of the draw
sequence and ends in the state that sequence ends in. -/
theorem rollLoop_eq_drawSeq (size : Int) : ∀ (n : Nat) (sum : Int) (g : MinstdRand),
    rollLoop minstd size n sum g
      = (drawSeq minstd size n g).map (fun r => (accumulate sum r.1, r.2)) := by
  intro n
  induction n with
  | zero => intro sum g; rfl
  | succ n ih =>
    intro sum g
    rw [rollLoop_succ, drawSeq_succ]
    cases uniformInt minstd 1 size g with
    | none => rfl
    | some r =>
      obtain ⟨v, g1⟩ := r
      simp only [Option.some_bind, ih]
      cases drawSeq minstd size n g1 with
      | none => rfl
      | some t => obtain ⟨vs, g2⟩ := t; rfl

/-- On a valid state the draw sequence exists at every length: its values lie in
`[1, size]` and it ends in a valid state further along the orbit. -/
theorem drawSeq_spec {size : Int} (h1 : 1 ≤ size) (h2 : size ≤ 2147483647) :
    ∀ (n : Nat) (g : MinstdRand), g.Valid →
      ∃ vs j, n ≤ j ∧ vs.length = n ∧ (∀ v ∈ vs, 1 ≤ v ∧ v ≤ size) ∧
        drawSeq minstd size n g = some (vs, MinstdRand.step^[j] g) := by
  intro n
  induction n with
  | zero => intro g _; exact ⟨[], 0, le_refl _, rfl, by simp, rfl⟩
  | succ n ih =>
    intro g hg
    obtain ⟨j, v, hj, hv1, hv2, heq⟩ := draw_spec h1 h2 hg
    obtain ⟨vs, j2, hj2, hlen, hvs, heq2⟩ := ih _ (MinstdRand.valid_iterate hg j)
    refine ⟨v :: vs, j2 + j, by omega, by simp [hlen], ?_, ?_⟩
    · intro w hw
      rcases List.mem_cons.1 hw with h | h
      · subst h; exact ⟨hv1, hv2⟩
      · exact hvs w h
    · rw [drawSeq_succ, heq]
      simp only [Option.some_bind, heq2, Option.map_some', Function.iterate_add_apply]

/-- Without overflow the accumulator holds the exact sum. -/
theorem accumulate_exact {size : Int} : ∀ (vs : List Int) (sum : Int),
    (∀ v ∈ vs, 1 ≤ v ∧ v ≤ size) → -2147483648 ≤ sum →
    sum + (vs.length : Int) * size ≤ 2147483647 →
    accumulate sum vs = sum + vs.sum ∧ (vs.length : Int) ≤ vs.sum ∧
      vs.sum ≤ (vs.length : Int) * size := by
  intro vs
  induction vs with
  | nil => intro sum _ _ _; simp [accumulate]
  | cons v vs ih =>
    intro sum hvs hlo hhi
    have hv := hvs v (List.mem_cons_self _ _)
    have hrest : ∀ w ∈ vs, 1 ≤ w ∧ w ≤ size := fun w hw => hvs w (List.mem_cons_of_mem _ hw)
    have hlen : (((v :: vs).length : Nat) : Int) = (vs.length : Int) + 1 := by simp
    rw [hlen] at hhi ⊢
    have hsz : (0 : Int) ≤ (vs.length : Int) * size :=
      mul_nonneg (Int.natCast_nonneg _) (by omega)
    have hexp : ((vs.length : Int) + 1) * size = (vs.length : Int) * size + size := by ring
    rw [hexp] at hhi ⊢
    have hw : toInt32 (sum + v) = sum + v := toInt32_of_range (by omega) (by omega)
    obtain ⟨ha, hb, hc⟩ := ih (sum + v) hrest (by omega) (by omega)
    refine ⟨?_, ?_, ?_⟩
    · show accumulate (toInt32 (sum + v)) vs = _
      rw [hw, ha, List.sum_cons]; ring
    · rw [List.sum_cons]; omega
    · rw [List.sum_cons]; omega

theorem drawSeq_append {σ : Type} (E : Urbg σ) (size : Int) (n : Nat) :
    ∀ (m : Nat) (g : σ), drawSeq E size (m + n) g
      = (drawSeq E size m g).bind
        (fun r => (drawSeq E size n r.2).map (fun t => (r.1 ++ t.1, t.2))) := by
  intro m
  induction m with
  | zero =>
    intro g
    rw [Nat.zero_add]
    show _ = (some ([], g)).bind _
    simp only [Option.some_bind, List.nil_append]
    cases drawSeq E size n g with
    | none => rfl
    | some t => rfl
  | succ m ih =>
    intro g
    rw [show m + 1 + n = (m + n) + 1 by omega, drawSeq_succ, drawSeq_succ]
    cases uniformInt E 1 size g with
    | none => rfl
    | some r =>
      obtain ⟨v, g1⟩ := r
      simp only [Option.some_bind, ih]
      cases drawSeq E size m g1 with
      | none => rfl
      | some t =>
        obtain ⟨vs, g2⟩ := t
        simp only [Option.some_bind, Option.map_some']
        cases drawSeq E size n g2 with
        | none => rfl
        | some u => rfl

theorem accumulate_append (sum : Int) (xs ys : List Int) :
    accumulate sum (xs ++ ys) = accumulate (accumulate sum xs) ys := by
  unfold accumulate
  rw [List.foldl_append]

/-- The call `roll(num, size)` with `1 ≤ size`, in terms of the draw sequence. -/
theorem Dice.roll_eq (d : Dice) (num : Int) {size : Int} (hs : 1 ≤ size) :
    d.roll num size
      = (drawSeq minstd size num.toNat d.gen).map (fun r => (accumulate 0 r.1, ⟨r.2⟩)) := by
  unfold Dice.roll rollWith
  rw [if_neg (by omega), rollLoop_eq_drawSeq]
  cases drawSeq minstd size num.toNat d.gen with
  | none => rfl
  | some r => rfl

/-- With `1 ≤ size`, a call on a valid state returns a value and leaves a valid
state. -/
theorem Dice.roll_total (d : Dice) (num : Int) {size : Int} (hs : 1 ≤ size)
    (hs2 : size ≤ 2147483647) (hd : d.gen.Valid) :
    ∃ v d1, d.roll num size = some (v, d1) ∧ d1.gen.Valid := by
  obtain ⟨vs, j, _, _, _, heq⟩ := drawSeq_spec hs hs2 num.toNat d.gen hd
  refine ⟨accumulate 0 vs, ⟨MinstdRand.step^[j] d.gen⟩, ?_, MinstdRand.valid_iterate hd j⟩
  rw [Dice.roll_eq d num hs, heq]
  rfl

theorem Dice.rolls_cons (d : Dice) (c : Int × Int) (rest : List (Int × Int)) :
    d.rolls (c :: rest)
      = (d.roll c.1 c.2).bind
        (fun r => (r.2.rolls rest).map (fun t => (r.1 :: t.1, t.2))) := by
  rw [Dice.rolls]
  cases d.roll c.1 c.2 with
  | none => rfl
  | some r =>
    obtain ⟨v, d1⟩ := r
    simp only [Option.some_bind]
    cases d1.rolls rest with
    | none => rfl
    | some t => rfl

theorem Dice.rolls_total : ∀ (calls : List (Int × Int)) (d : Dice), d.gen.Valid →
    (∀ c ∈ calls, 1 ≤ c.2 ∧ c.2 ≤ 2147483647) →
    ∃ vs d1, d.rolls calls = some (vs, d1) ∧ vs.length = calls.length := by
  intro calls
  induction calls with
  | nil => intro d _ _; exact ⟨[], d, rfl, rfl⟩
  | cons c rest ih =>
    intro d hd hc
    have h1 := hc c (List.mem_cons_self _ _)
    obtain ⟨v, d1, hv, hd1⟩ := Dice.roll_total d c.1 h1.1 h1.2 hd
    obtain ⟨vs, d2, hvs, hlen⟩ := ih d1 hd1 (fun c' hc' => hc c' (List.mem_cons_of_mem _ hc'))
    refine ⟨v :: vs, d2, ?_, by simp [hlen]⟩
    rw [Dice.rolls_cons, hv]
    simp only [Option.some_bind, hvs, Option.map_some']

/-- Without overflow the value returned lies between `num` and `num * size`. -/
theorem Dice.roll_bounds (d : Dice) (num size : Int) (hd : d.gen.Valid) (hn : 0 ≤ num)
    (hs : 1 ≤ size) (hb : num * size ≤ 2147483647) :
    ∃ v d1, d.roll num size = some (v, d1) ∧ num ≤ v ∧ v ≤ num * size := by
  rcases eq_or_lt_of_le hn with h0 | hpos
  · subst h0
    refine ⟨0, d, ?_, le_refl _, by simp⟩
    rw [Dice.roll_eq d 0 hs]
    rfl
  · have hs2 : size ≤ 2147483647 := by nlinarith
    obtain ⟨vs, j, _, hlen, hvs, heq⟩ := drawSeq_spec hs hs2 num.toNat d.gen hd
    have hl : (vs.length : Int) = num := by rw [hlen]; omega
    obtain ⟨ha, hb1, hb2⟩ := accumulate_exact vs 0 hvs (by norm_num)
      (by rw [hl]; omega)
    refine ⟨accumulate 0 vs, ⟨MinstdRand.step^[j] d.gen⟩, ?_, ?_, ?_⟩
    · rw [Dice.roll_eq d num hs, heq]; rfl
    · rw [ha, ← hl]; omega
    · rw [ha, ← hl]; omega

/-- A call that asks for no draw returns `0` and leaves the object as it was. -/
theorem Dice.roll_nonpos (d : Dice) (num size : Int) (hn : num ≤ 0) (hs : 1 ≤ size) :
    d.roll num size = some (0, d) := by
  rw [Dice.roll_eq d num hs, show num.toNat = 0 by omega]
  rfl

/-! ## Claims on `Dice::roll` -/

/-- C1, as stated, fails: from seed `1` the call `roll(4, 2147483645)` draws
`48271 + 182605794 + 1291394886 + 1914720637 = 3388769588`, more than an `int`
holds, and the value returned, `-906197708`, is below `num = 4`. -/
theorem roll_range_counterexample :
    (Dice.ofSeed 1).roll 4 2147483645 = some (-906197708, ⟨⟨1914720637⟩⟩) ∧
      ¬ ((4 : Int) ≤ -906197708 ∧ (-906197708 : Int) ≤ 4 * 2147483645) := by
  constructor
  · decide
  · decide

/-- C1, amended: for every valid generator state, every `num ≥ 0` and every
`size ≥ 1` with `num * size ≤ 2^31 - 1`, `roll(num, size)` returns a value that is
at least `num` and at most `num * size`. -/
theorem roll_range (d : Dice) (num size : Int) (hd : d.gen.Valid) (hn : 0 ≤ num)
    (hs : 1 ≤ size) (hb : num * size ≤ 2147483647) :
    ∃ v d1, d.roll num size = some (v, d1) ∧ num ≤ v ∧ v ≤ num * size :=
  Dice.roll_bounds d num size hd hn hs hb

theorem roll_range_witness :
    ∃ v d1, (Dice.ofSeed 42).roll 2 6 = some (v, d1) ∧ (2 : Int) ≤ v ∧ v ≤ 2 * 6 :=
  roll_range (Dice.ofSeed 42) 2 6 (by decide) (by decide) (by decide) (by decide)

/-- C2: two instances constructed with the same seed return the same sequence of
roll results for the same sequence of arguments and end in the same state; when
every `size` is a valid `int` that is at least `1`, that sequence is produced in
full. -/
theorem rolls_deterministic (s : Nat) (d1 d2 : Dice) (h1 : d1 = Dice.ofSeed s)
    (h2 : d2 = Dice.ofSeed s) (calls : List (Int × Int)) :
    d1.rolls calls = d2.rolls calls ∧
      ((∀ c ∈ calls, 1 ≤ c.2 ∧ c.2 ≤ 2147483647) →
        ∃ vs d, d1.rolls calls = some (vs, d) ∧ d2.rolls calls = some (vs, d) ∧
          vs.length = calls.length) := by
  subst h1 h2
  refine ⟨rfl, fun hc => ?_⟩
  obtain ⟨vs, d, hvs, hlen⟩ := Dice.rolls_total calls _ (Dice.ofSeed_valid s) hc
  exact ⟨vs, d, hvs, hvs, hlen⟩

theorem rolls_deterministic_witness :
    (Dice.ofSeed 42).rolls [(2, 6), (1, 6), (3, 20)]
      = (Dice.ofSeed 42).rolls [(2, 6), (1, 6), (3, 20)] ∧
    (Dice.ofSeed 42).rolls [(2, 6), (1, 6), (3, 20)] = some ([5, 2, 43], ⟨⟨2076553157⟩⟩) :=
  ⟨(rolls_deterministic 42 (Dice.ofSeed 42) (Dice.ofSeed 42) rfl rfl
      [(2, 6), (1, 6), (3, 20)]).1, by decide⟩

/-- C3, as stated, fails: from seed `1` the first four draws of `dist(1, 2147483645)`
sum to `3388769588`, and `roll(4, 2147483645)` returns `-906197708`. -/
theorem roll_sum_counterexample :
    drawSeq minstd 2147483645 4 (Dice.ofSeed 1).gen
        = some ([48271, 182605794, 1291394886, 1914720637], ⟨1914720637⟩) ∧
      (Dice.ofSeed 1).roll 4 2147483645 = some (-906197708, ⟨⟨1914720637⟩⟩) ∧
      (-906197708 : Int) ≠ [48271, 182605794, 1291394886, 1914720637].sum := by
  refine ⟨?_, ?_, ?_⟩
  · decide
  · decide
  · decide

/-- C3, amended: for every valid generator state `g`, every `num ≥ 0` and every
`size ≥ 1`, `roll(num, size)` leaves the generator in the state reached after
exactly the first `num` draws of the sequence of draws started at `g`, and, when
`num * size ≤ 2^31 - 1`, returns exactly the sum of those `num` draws. -/
theorem roll_sum_of_draws (d : Dice) (num size : Int) (hd : d.gen.Valid) (hn : 0 ≤ num)
    (hs : 1 ≤ size) (hs2 : size ≤ 2147483647) :
    ∃ vs g v, drawSeq minstd size num.toNat d.gen = some (vs, g) ∧
      (vs.length : Int) = num ∧ d.roll num size = some (v, ⟨g⟩) ∧
      (num * size ≤ 2147483647 → v = vs.sum) := by
  obtain ⟨vs, j, _, hlen, hvs, heq⟩ := drawSeq_spec hs hs2 num.toNat d.gen hd
  have hl : (vs.length : Int) = num := by rw [hlen]; omega
  refine ⟨vs, MinstdRand.step^[j] d.gen, accumulate 0 vs, heq, hl, ?_, ?_⟩
  · rw [Dice.roll_eq d num hs, heq]; rfl
  · intro hb
    obtain ⟨ha, _, _⟩ := accumulate_exact vs 0 hvs (by norm_num) (by rw [hl]; omega)
    rw [ha]; ring

theorem roll_sum_of_draws_witness :
    ∃ vs g v, drawSeq minstd 6 (2 : Int).toNat (Dice.ofSeed 42).gen = some (vs, g) ∧
      (vs.length : Int) = 2 ∧ (Dice.ofSeed 42).roll 2 6 = some (v, ⟨g⟩) ∧
      ((2 : Int) * 6 ≤ 2147483647 → v = vs.sum) :=
  roll_sum_of_draws (Dice.ofSeed 42) 2 6 (by decide) (by decide) (by decide) (by decide)

/-- C4, as stated, fails: from seed `1` with `size = 2147483645`, `roll(3, size)`
returns `1474048951` and the next `roll(1, size)` returns `1914720637`; their sum
is `3388769588`, and `roll(4, size)` on a fresh instance returns `-906197708`. -/
theorem roll_sequential_counterexample :
    (Dice.ofSeed 1).roll 3 2147483645 = some (1474048951, ⟨⟨1291394886⟩⟩) ∧
      (⟨⟨1291394886⟩⟩ : Dice).roll 1 2147483645 = some (1914720637, ⟨⟨1914720637⟩⟩) ∧
      (Dice.ofSeed 1).roll (3 + 1) 2147483645 = some (-906197708, ⟨⟨1914720637⟩⟩) ∧
      (1474048951 : Int) + 1914720637 ≠ -906197708 := by
  refine ⟨?_, ?_, ?_, ?_⟩
  · decide
  · decide
  · decide
  · decide

/-- C4, amended: for every valid generator state, every `size ≥ 1` and all
`m, n ≥ 0`, `roll(m, size)` followed by `roll(n, size)` on one instance ends in the
same generator state as `roll(m + n, size)` on a fresh instance in the same
starting state, and, when `(m + n) * size ≤ 2^31 - 1`, the two values returned sum
to the value of `roll(m + n, size)`; two successive `roll(1, 6)` return the first
and the second value of the draw sequence, in that order. -/
theorem roll_sequential (d : Dice) (m n size : Int) (hd : d.gen.Valid) (hm : 0 ≤ m)
    (hn : 0 ≤ n) (hs : 1 ≤ size) (hs2 : size ≤ 2147483647) :
    (∃ v1 d1 v2 d2 v, d.roll m size = some (v1, d1) ∧ d1.roll n size = some (v2, d2) ∧
        d.roll (m + n) size = some (v, d2) ∧
        ((m + n) * size ≤ 2147483647 → v1 + v2 = v)) ∧
      (∃ a d1 b d2, d.roll 1 6 = some (a, d1) ∧ d1.roll 1 6 = some (b, d2) ∧
        drawSeq minstd 6 2 d.gen = some ([a, b], d2.gen)) := by
  have key : ∀ (m n size : Int), 0 ≤ m → 0 ≤ n → 1 ≤ size → size ≤ 2147483647 →
      ∃ xs ys g1 g2, drawSeq minstd size m.toNat d.gen = some (xs, g1) ∧
        drawSeq minstd size n.toNat g1 = some (ys, g2) ∧
        drawSeq minstd size (m + n).toNat d.gen = some (xs ++ ys, g2) ∧
        (xs.length : Int) = m ∧ (ys.length : Int) = n ∧
        (∀ v ∈ xs, 1 ≤ v ∧ v ≤ size) ∧ (∀ v ∈ ys, 1 ≤ v ∧ v ≤ size) := by
    intro m n size hm hn hs hs2
    obtain ⟨xs, j, _, hxl, hxs, hx⟩ := drawSeq_spec hs hs2 m.toNat d.gen hd
    obtain ⟨ys, j2, _, hyl, hys, hy⟩ :=
      drawSeq_spec hs hs2 n.toNat _ (MinstdRand.valid_iterate hd j)
    refine ⟨xs, ys, _, _, hx, hy, ?_, by rw [hxl]; omega, by rw [hyl]; omega, hxs, hys⟩
    rw [show (m + n).toNat = m.toNat + n.toNat by omega, drawSeq_append, hx]
    simp only [Option.some_bind, hy, Option.map_some']
  constructor
  · obtain ⟨xs, ys, g1, g2, hx, hy, hxy, hxl, hyl, hxs, hys⟩ := key m n size hm hn hs hs2
    refine ⟨accumulate 0 xs, ⟨g1⟩, accumulate 0 ys, ⟨g2⟩, accumulate 0 (xs ++ ys),
      ?_, ?_, ?_, ?_⟩
    · rw [Dice.roll_eq d m hs, hx]; rfl
    · rw [Dice.roll_eq _ n hs, hy]; rfl
    · rw [Dice.roll_eq d (m + n) hs, hxy]; rfl
    · intro hb
      have hexp : (m + n) * size = m * size + n * size := by ring
      have hmz : 0 ≤ m * size := mul_nonneg hm (by omega)
      have hnz : 0 ≤ n * size := mul_nonneg hn (by omega)
      obtain ⟨ha, _, _⟩ := accumulate_exact xs 0 hxs (by norm_num) (by rw [hxl]; omega)
      obtain ⟨hb2, _, _⟩ := accumulate_exact ys 0 hys (by norm_num) (by rw [hyl]; omega)
      have hall : ∀ v ∈ xs ++ ys, 1 ≤ v ∧ v ≤ size := by
        intro v hv
        rcases List.mem_append.1 hv with h | h
        · exact hxs v h
        · exact hys v h
      obtain ⟨hc, _, _⟩ := accumulate_exact (xs ++ ys) 0 hall (by norm_num)
        (by rw [List.length_append]; push_cast; rw [hxl, hyl]; omega)
      rw [ha, hb2, hc, List.sum_append]; ring
  · obtain ⟨xs, ys, g1, g2, hx, hy, hxy, hxl, hyl, hxs, hys⟩ :=
      key 1 1 6 (by norm_num) (by norm_num) (by norm_num) (by norm_num)
    obtain ⟨a, rfl⟩ : ∃ a, xs = [a] := by
      match xs, hxl with
      | [a], _ => exact ⟨a, rfl⟩
      | [], h => simp at h
      | _ :: _ :: _, h => simp at h; omega
    obtain ⟨b, rfl⟩ : ∃ b, ys = [b] := by
      match ys, hyl with
      | [b], _ => exact ⟨b, rfl⟩
      | [], h => simp at h
      | _ :: _ :: _, h => simp at h; omega
    have ea : accumulate 0 [a] = a := by
      have h := (accumulate_exact [a] 0 hxs (by norm_num) (by simp)).1
      simpa using h
    have eb : accumulate 0 [b] = b := by
      have h := (accumulate_exact [b] 0 hys (by norm_num) (by simp)).1
      simpa using h
    refine ⟨a, ⟨g1⟩, b, ⟨g2⟩, ?_, ?_, hxy⟩
    · rw [Dice.roll_eq d 1 (by norm_num), hx]
      simp only [Option.map_some', ea]
    · rw [Dice.roll_eq _ 1 (by norm_num), hy]
      simp only [Option.map_some', eb]

theorem roll_sequential_witness :
    (∃ v1 d1 v2 d2 v, (Dice.ofSeed 42).roll 2 6 = some (v1, d1) ∧
        d1.roll 1 6 = some (v2, d2) ∧ (Dice.ofSeed 42).roll (2 + 1) 6 = some (v, d2) ∧
        (((2 : Int) + 1) * 6 ≤ 2147483647 → v1 + v2 = v)) ∧
      (∃ a d1 b d2, (Dice.ofSeed 42).roll 1 6 = some (a, d1) ∧ d1.roll 1 6 = some (b, d2) ∧
        drawSeq minstd 6 2 (Dice.ofSeed 42).gen = some ([a, b], d2.gen)) :=
  roll_sequential (Dice.ofSeed 42) 2 1 6 (by decide) (by decide) (by decide) (by decide)
    (by decide)

/-- C5: `roll()` with no arguments is the same operation as `roll(1, 6)`, and on
every valid generator state it returns a value of `[1, 6]`. -/
theorem rollDefault_eq (d : Dice) (hd : d.gen.Valid) :
    d.rollDefault = d.roll 1 6 ∧
      ∃ v d1, d.rollDefault = some (v, d1) ∧ 1 ≤ v ∧ v ≤ 6 := by
  refine ⟨rfl, ?_⟩
  obtain ⟨v, d1, h, h1, h2⟩ :=
    Dice.roll_bounds d 1 6 hd (by norm_num) (by norm_num) (by norm_num)
  exact ⟨v, d1, h, by omega, by omega⟩

theorem rollDefault_eq_witness :
    (Dice.ofSeed 42).rollDefault = (Dice.ofSeed 42).roll 1 6 ∧
      ∃ v d1, (Dice.ofSeed 42).rollDefault = some (v, d1) ∧ 1 ≤ v ∧ v ≤ 6 :=
  rollDefault_eq (Dice.ofSeed 42) (by decide)

/-- C6: for every generator state and every `size ≥ 1`, `roll(0, size)` returns
`0` and leaves the generator state as it was. -/
theorem roll_zero (d : Dice) (size : Int) (hs : 1 ≤ size) :
    d.roll 0 size = some (0, d) :=
  Dice.roll_nonpos d 0 size (le_refl _) hs

theorem roll_zero_witness : (Dice.ofSeed 42).roll 0 6 = some (0, Dice.ofSeed 42) :=
  roll_zero (Dice.ofSeed 42) 6 (by decide)

/-! ## Claims on construction and on a negative count -/

/-- C9: with the tick count `t` of the clock as input, `Dice()` is `Dice(t mod 2^32)`;
two instances default-constructed at tick counts congruent modulo `2^32` have the
same generator state and return identical roll sequences. -/
theorem ofClock_eq (t t2 : Int) (h : t % 4294967296 = t2 % 4294967296)
    (calls : List (Int × Int)) :
    Dice.ofClock t = Dice.ofSeed ((t % 4294967296).toNat) ∧
      Dice.ofClock t = Dice.ofClock t2 ∧
      (Dice.ofClock t).rolls calls = (Dice.ofClock t2).rolls calls := by
  have h2 : Dice.ofClock t = Dice.ofClock t2 := by
    unfold Dice.ofClock toUInt32
    rw [h]
  exact ⟨rfl, h2, by rw [h2]⟩

theorem ofClock_eq_witness :
    Dice.ofClock 5 = Dice.ofSeed (((5 : Int) % 4294967296).toNat) ∧
      Dice.ofClock 5 = Dice.ofClock 4294967301 ∧
      (Dice.ofClock 5).rolls [(2, 6)] = (Dice.ofClock 4294967301).rolls [(2, 6)] :=
  ofClock_eq 5 4294967301 (by decide) [(2, 6)]

/-- C10: for every generator state, every `num < 0` and every `size ≥ 1`,
`roll(num, size)` returns `0` and leaves the generator state unchanged, exactly
like `roll(0, size)`. -/
theorem roll_negative (d : Dice) (num size : Int) (hn : num < 0) (hs : 1 ≤ size) :
    d.roll num size = some (0, d) ∧ d.roll num size = d.roll 0 size := by
  have h : d.roll num size = some (0, d) := Dice.roll_nonpos d num size (le_of_lt hn) hs
  exact ⟨h, by rw [h, Dice.roll_nonpos d 0 size (le_refl _) hs]⟩

theorem roll_negative_witness :
    (Dice.ofSeed 42).roll (-3) 6 = some (0, Dice.ofSeed 42) ∧
      (Dice.ofSeed 42).roll (-3) 6 = (Dice.ofSeed 42).roll 0 6 :=
  roll_negative (Dice.ofSeed 42) (-3) 6 (by decide) (by decide)

/-! ## Counting the engine calls -/

theorem counted_call {σ : Type} (E : Urbg σ) (s : σ) (c : Nat) :
    E.counted.call (s, c) = ((E.call s).1, ((E.call s).2, c + 1)) := rfl

theorem counted_min {σ : Type} (E : Urbg σ) : E.counted.min = E.min := rfl

theorem counted_max {σ : Type} (E : Urbg σ) : E.counted.max = E.max := rfl

theorem rejectLoop_counted {σ : Type} (E : Urbg σ) (past : Nat) : ∀ (fuel : Nat) (s : σ),
    ∃ k, 1 ≤ k ∧ Simulates E s k (rejectLoop E past fuel s)
      (fun c => rejectLoop E.counted past fuel (s, c)) := by
  intro fuel
  induction fuel with
  | zero =>
    intro s
    exact ⟨1, le_refl _, fun c => rfl, fun x hx => by simp [rejectLoop] at hx⟩
  | succ fuel ih =>
    intro s
    by_cases hp : past ≤ usub (E.call s).1 E.min
    · obtain ⟨k, hk, h1, h2⟩ := ih (E.call s).2
      refine ⟨k + 1, by omega, fun c => ?_, fun x hx => ?_⟩
      · show rejectLoop E.counted past (fuel + 1) (s, c) = _
        rw [rejectLoop, counted_call, counted_min, if_pos hp]
        have := h1 (c + 1)
        simp only at this
        rw [this, rejectLoop, if_pos hp]
        congr 1
        funext x
        rw [show c + 1 + k = c + (k + 1) by omega]
      · rw [rejectLoop, if_pos hp] at hx
        rw [h2 x hx, Function.iterate_succ_apply]
        rfl
    · refine ⟨1, le_refl _, fun c => ?_, fun x hx => ?_⟩
      · show rejectLoop E.counted past (fuel + 1) (s, c) = _
        rw [rejectLoop, counted_call, counted_min, if_neg hp, rejectLoop, if_neg hp]
        rfl
      · rw [rejectLoop, if_neg hp] at hx
        cases hx
        rfl

theorem upscaleLoop_counted {σ : Type} (E : Urbg σ) (inner : σ → Option (Int × σ))
    (inner2 : σ × Nat → Option (Int × (σ × Nat))) (urange : Nat)
    (hin : ∀ s, ∃ k, 1 ≤ k ∧ Simulates E s k (inner s) (fun c => inner2 (s, c))) :
    ∀ (fuel : Nat) (s : σ),
      ∃ k, 1 ≤ k ∧ Simulates E s k (upscaleLoop E inner urange fuel s)
        (fun c => upscaleLoop E.counted inner2 urange fuel (s, c)) := by
  intro fuel
  induction fuel with
  | zero =>
    intro s
    exact ⟨1, le_refl _, fun c => rfl, fun x hx => by simp [upscaleLoop] at hx⟩
  | succ fuel ih =>
    intro s
    obtain ⟨k1, hk1, h1, h2⟩ := hin s
    cases hi : inner s with
    | none =>
      refine ⟨1, le_refl _, fun c => ?_, fun x hx => ?_⟩
      · have e := h1 c
        simp only [hi, Option.map_none'] at e
        show upscaleLoop E.counted inner2 urange (fuel + 1) (s, c) = _
        rw [upscaleLoop, e, upscaleLoop, hi]
        rfl
      · rw [upscaleLoop, hi] at hx
        cases hx
    | some r =>
      obtain ⟨h, s1⟩ := r
      have hs1 : s1 = E.advance^[k1] s := h2 (h, s1) hi
      have e : ∀ c, inner2 (s, c) = some (h, (s1, c + k1)) := by
        intro c
        have e := h1 c
        simp only [hi, Option.map_some'] at e
        exact e
      by_cases hc : urange < ((E.max - E.min + 1) % 18446744073709551616 * toU64 h
            % 18446744073709551616 + usub (E.call s1).1 E.min) % 18446744073709551616 ∨
          ((E.max - E.min + 1) % 18446744073709551616 * toU64 h
            % 18446744073709551616 + usub (E.call s1).1 E.min) % 18446744073709551616
            < (E.max - E.min + 1) % 18446744073709551616 * toU64 h % 18446744073709551616
      · obtain ⟨k2, _, h3, h4⟩ := ih (E.call s1).2
        refine ⟨k2 + 1 + k1, by omega, fun c => ?_, fun x hx => ?_⟩
        · show upscaleLoop E.counted inner2 urange (fuel + 1) (s, c) = _
          rw [upscaleLoop, e c]
          simp only [counted_call, counted_min, counted_max]
          rw [if_pos hc]
          have := h3 (c + k1 + 1)
          simp only at this
          rw [this]
          conv_rhs => rw [upscaleLoop, hi]
          simp only
          rw [if_pos hc]
          congr 1
          funext x
          rw [show c + k1 + 1 + k2 = c + (k2 + 1 + k1) by omega]
        · rw [upscaleLoop, hi] at hx
          simp only at hx
          rw [if_pos hc] at hx
          rw [h4 x hx, hs1, Function.iterate_add_apply, Function.iterate_succ_apply]
          rfl
      · refine ⟨1 + k1, by omega, fun c => ?_, fun x hx => ?_⟩
        · show upscaleLoop E.counted inner2 urange (fuel + 1) (s, c) = _
          rw [upscaleLoop, e c]
          simp only [counted_call, counted_min, counted_max]
          rw [if_neg hc]
          conv_rhs => rw [upscaleLoop, hi]
          simp only
          rw [if_neg hc]
          simp only [Option.map_some']
          rw [show c + k1 + 1 = c + (1 + k1) by omega]
        · rw [upscaleLoop, hi] at hx
          simp only at hx
          rw [if_neg hc] at hx
          cases hx
          rw [hs1, Function.iterate_add_apply]
          rfl

theorem Simulates.map_value {σ α β : Type} {E : Urbg σ} {s : σ} {k : Nat}
    {r : Option (α × σ)} {f : Nat → Option (α × (σ × Nat))} (h : Simulates E s k r f)
    (φ : α → β) :
    Simulates E s k (r.map (fun x => (φ x.1, x.2)))
      (fun c => (f c).map (fun x => (φ x.1, x.2))) := by
  obtain ⟨h1, h2⟩ := h
  refine ⟨fun c => ?_, fun x hx => ?_⟩
  · show (f c).map _ = _
    rw [h1 c]
    cases r with
    | none => rfl
    | some y => rfl
  · cases r with
    | none => simp at hx
    | some y =>
      simp only [Option.map_some', Option.some.injEq] at hx
      rw [← hx]
      exact h2 y rfl

theorem uniformIntAux_counted {σ : Type} (E : Urbg σ) (fuel : Nat) :
    ∀ (depth : Nat) (a b : Int) (s : σ),
      ∃ k, 1 ≤ k ∧ Simulates E s k (uniformIntAux E fuel depth a b s)
        (fun c => uniformIntAux E.counted fuel depth a b (s, c)) := by
  intro depth
  induction depth with
  | zero =>
    intro a b s
    exact ⟨1, le_refl _, fun c => rfl, fun x hx => by simp [uniformIntAux] at hx⟩
  | succ depth ih =>
    intro a b s
    rcases Nat.lt_trichotomy (usub (toU64 b) (toU64 a)) (E.max - E.min) with h | h | h
    · obtain ⟨k, hk, hsim⟩ := rejectLoop_counted E ((usub (toU64 b) (toU64 a) + 1)
          * ((E.max - E.min) / (usub (toU64 b) (toU64 a) + 1))) fuel s
      refine ⟨k, hk, ?_⟩
      have hm := hsim.map_value (fun q : Nat =>
        toInt32 (((q / ((E.max - E.min) / (usub (toU64 b) (toU64 a) + 1))
          + toU64 a) % 18446744073709551616 : Nat) : Int))
      rw [uniformIntAux_down E fuel depth a b s h]
      have e : ∀ c, uniformIntAux E.counted fuel (depth + 1) a b (s, c) = _ :=
        fun c => uniformIntAux_down E.counted fuel depth a b (s, c) h
      simp only [e, counted_min, counted_max]
      exact hm
    · have e1 := uniformIntAux_direct E fuel depth a b s h.symm
      have e2 : ∀ c, uniformIntAux E.counted fuel (depth + 1) a b (s, c) = _ :=
        fun c => uniformIntAux_direct E.counted fuel depth a b (s, c) h.symm
      refine ⟨1, le_refl _, fun c => ?_, fun x hx => ?_⟩
      · simp only [e2, e1, counted_call, counted_min, Option.map_some']
      · rw [← Option.some.inj (e1.symm.trans hx)]
        rfl
    · obtain ⟨k, hk, hsim⟩ := upscaleLoop_counted E
        (uniformIntAux E fuel depth 0
          (toInt32 ((usub (toU64 b) (toU64 a) / ((E.max - E.min + 1) % 18446744073709551616)
            : Nat) : Int)))
        (uniformIntAux E.counted fuel depth 0
          (toInt32 ((usub (toU64 b) (toU64 a) / ((E.max - E.min + 1) % 18446744073709551616)
            : Nat) : Int)))
        (usub (toU64 b) (toU64 a)) (fun s => ih _ _ s) fuel s
      refine ⟨k, hk, ?_⟩
      have hm := hsim.map_value (fun q : Nat =>
        toInt32 (((q + toU64 a) % 18446744073709551616 : Nat) : Int))
      rw [uniformIntAux_up E fuel depth a b s h]
      have e : ∀ c, uniformIntAux E.counted fuel (depth + 1) a b (s, c) = _ :=
        fun c => uniformIntAux_up E.counted fuel depth a b (s, c) h
      simp only [e, counted_min, counted_max]
      exact hm

theorem rollLoop_counted {σ : Type} (E : Urbg σ) (size : Int) :
    ∀ (n : Nat) (sum : Int) (s : σ),
      ∃ k, n ≤ k ∧ Simulates E s k (rollLoop E size n sum s)
        (fun c => rollLoop E.counted size n sum (s, c)) := by
  intro n
  induction n with
  | zero =>
    intro sum s
    refine ⟨0, le_refl _, fun c => rfl, fun x hx => ?_⟩
    rw [rollLoop] at hx
    cases hx
    rfl
  | succ n ih =>
    intro sum s
    obtain ⟨k1, hk1, h1, h2⟩ := uniformIntAux_counted E loopBound 64 1 size s
    cases hd : uniformInt E 1 size s with
    | none =>
      refine ⟨n + 1, le_refl _, fun c => ?_, fun x hx => ?_⟩
      · have e := h1 c
        simp only at e
        rw [show uniformIntAux E loopBound 64 1 size s = uniformInt E 1 size s from rfl,
          hd] at e
        show rollLoop E.counted size (n + 1) sum (s, c) = _
        rw [rollLoop_succ, rollLoop_succ, hd,
          show uniformInt E.counted 1 size (s, c)
            = uniformIntAux E.counted loopBound 64 1 size (s, c) from rfl, e]
        rfl
      · rw [rollLoop_succ, hd] at hx
        cases hx
    | some r =>
      obtain ⟨v, s1⟩ := r
      have hs1 : s1 = E.advance^[k1] s := h2 (v, s1) hd
      obtain ⟨k2, hk2, h3, h4⟩ := ih (toInt32 (sum + v)) s1
      refine ⟨k2 + k1, by omega, fun c => ?_, fun x hx => ?_⟩
      · have e := h1 c
        simp only at e
        rw [show uniformIntAux E loopBound 64 1 size s = uniformInt E 1 size s from rfl,
          hd] at e
        show rollLoop E.counted size (n + 1) sum (s, c) = _
        rw [rollLoop_succ, rollLoop_succ, hd,
          show uniformInt E.counted 1 size (s, c)
            = uniformIntAux E.counted loopBound 64 1 size (s, c) from rfl, e]
        simp only [Option.map_some', Option.some_bind]
        have := h3 (c + k1)
        simp only at this
        rw [this]
        congr 1
        funext x
        rw [show c + k1 + k2 = c + (k2 + k1) by omega]
      · rw [rollLoop_succ, hd] at hx
        simp only [Option.some_bind] at hx
        rw [h4 x hx, hs1, Function.iterate_add_apply]

theorem rollWith_counted {σ : Type} (E : Urbg σ) (num size : Int) (s : σ) :
    ∃ k, num.toNat ≤ k ∧ Simulates E s k (rollWith E num size s)
      (fun c => rollWith E.counted num size (s, c)) := by
  unfold rollWith
  by_cases h : size < 1
  · refine ⟨num.toNat, le_refl _, fun c => ?_, fun x hx => ?_⟩
    · simp only [if_pos h, Option.map_none']
    · rw [if_pos h] at hx
      cases hx
  · simp only [if_neg h]
    exact rollLoop_counted E size num.toNat 0 s

/-! ## The generator state along a sequence of calls -/

theorem minstd_advance : minstd.advance = MinstdRand.step := rfl

/-- Fewer steps than the period never lead a valid state back to itself. -/
theorem MinstdRand.iterate_ne {g : MinstdRand} (hg : g.Valid) {j : Nat} (h1 : 1 ≤ j)
    (h2 : j < modulus - 1) : MinstdRand.step^[j] g ≠ g := by
  intro h
  have hmod : j ≡ 0 [MOD modulus - 1] := MinstdRand.iterate_inj hg (i := j) (j := 0) h
  have hdvd : modulus - 1 ∣ j := (Nat.modEq_zero_iff_dvd).1 hmod
  have := Nat.le_of_dvd (by omega) hdvd
  omega

theorem rollWith_total (num : Int) {size : Int} (hs : 1 ≤ size) (hs2 : size ≤ 2147483647)
    {g : MinstdRand} (hg : g.Valid) :
    ∃ v g1, rollWith minstd num size g = some (v, g1) ∧ g1.Valid := by
  obtain ⟨vs, j, _, _, _, heq⟩ := drawSeq_spec hs hs2 num.toNat g hg
  refine ⟨accumulate 0 vs, MinstdRand.step^[j] g, ?_, MinstdRand.valid_iterate hg j⟩
  unfold rollWith
  rw [if_neg (by omega), rollLoop_eq_drawSeq, heq]
  rfl

theorem Dice.history_cons (d : Dice) (c : Int × Int) (rest : List (Int × Int)) :
    d.history (c :: rest)
      = (d.roll c.1 c.2).bind (fun r => (r.2.history rest).map (fun ds => d :: ds)) := by
  rw [Dice.history]
  cases d.roll c.1 c.2 with
  | none => rfl
  | some r =>
    obtain ⟨v, d1⟩ := r
    simp only [Option.some_bind]
    cases d1.history rest with
    | none => rfl
    | some t => rfl

theorem engineCalls_cons (s : MinstdRand × Nat) (c : Int × Int) (rest : List (Int × Int)) :
    engineCalls s (c :: rest)
      = (rollWith minstd.counted c.1 c.2 s).bind (fun r => engineCalls r.2 rest) := by
  rw [engineCalls]
  cases rollWith minstd.counted c.1 c.2 s with
  | none => rfl
  | some r => obtain ⟨v, s1⟩ := r; rfl

/-- Along a sequence of calls with `num ≥ 1`, every later state of the instance is
the starting state advanced by a positive number of engine steps, at most the
number of engine calls consumed; below the period these states are pairwise
distinct. -/
theorem history_orbit : ∀ (calls : List (Int × Int)) (g : MinstdRand) (c0 : Nat),
    g.Valid → (∀ c ∈ calls, 1 ≤ c.1 ∧ 1 ≤ c.2 ∧ c.2 ≤ 2147483647) →
    ∃ rest total, Dice.history ⟨g⟩ calls = some (⟨g⟩ :: rest) ∧
      engineCalls (g, c0) calls = some total ∧ c0 ≤ total ∧
      rest.length = calls.length ∧
      (∀ d ∈ rest, ∃ j, 1 ≤ j ∧ j ≤ total - c0 ∧ d.gen = MinstdRand.step^[j] g) ∧
      (total - c0 < modulus - 1 → rest.Nodup) := by
  intro calls
  induction calls with
  | nil =>
    intro g c0 _ _
    exact ⟨[], c0, rfl, rfl, le_refl _, rfl, by simp, fun _ => List.nodup_nil⟩
  | cons c cs ih =>
    intro g c0 hg hc
    have hc1 := hc c (List.mem_cons_self _ _)
    obtain ⟨v, g1, hroll, hg1⟩ := rollWith_total c.1 hc1.2.1 hc1.2.2 hg
    obtain ⟨k, hk, hsim1, hsim2⟩ := rollWith_counted minstd c.1 c.2 g
    have hk1 : 1 ≤ k := by omega
    have hg1eq : g1 = MinstdRand.step^[k] g := by
      have := hsim2 (v, g1) hroll
      rw [minstd_advance] at this
      exact this
    have hcnt : rollWith minstd.counted c.1 c.2 (g, c0) = some (v, (g1, c0 + k)) := by
      have := hsim1 c0
      simp only [hroll, Option.map_some'] at this
      exact this
    obtain ⟨rest, total, hhist, hcalls, hle, hlen, hmem, hnd⟩ :=
      ih g1 (c0 + k) hg1 (fun c' hc' => hc c' (List.mem_cons_of_mem _ hc'))
    have hd : (⟨g⟩ : Dice).roll c.1 c.2 = some (v, ⟨g1⟩) := by
      unfold Dice.roll
      rw [hroll]
      rfl
    refine ⟨⟨g1⟩ :: rest, total, ?_, ?_, by omega, by simp [hlen], ?_, ?_⟩
    · rw [Dice.history_cons, hd]
      simp only [Option.some_bind, hhist, Option.map_some']
    · rw [engineCalls_cons, hcnt]
      simp only [Option.some_bind, hcalls]
    · intro d hdm
      rcases List.mem_cons.1 hdm with h | h
      · subst h
        exact ⟨k, hk1, by omega, hg1eq⟩
      · obtain ⟨j, hj1, hj2, hj3⟩ := hmem d h
        refine ⟨j + k, by omega, by omega, ?_⟩
        rw [hj3, hg1eq, Function.iterate_add_apply]
    · intro hlt
      refine List.nodup_cons.2 ⟨?_, hnd (by omega)⟩
      intro hin
      obtain ⟨j, hj1, hj2, hj3⟩ := hmem _ hin
      exact MinstdRand.iterate_ne hg1 hj1 (by omega) hj3.symm

/-! ## Claim on the generator state along a sequence of calls -/

/-- C7: for every seed, along any sequence of calls `roll(num, size)` with
`num ≥ 1` and `size ≥ 1` on one instance, the generator state after each call
differs from the state before it and from every earlier state of that instance,
as long as the total number of engine steps consumed stays below the period
`2147483646`. -/
theorem state_never_repeats (seed : Nat) (calls : List (Int × Int))
    (h : ∀ c ∈ calls, 1 ≤ c.1 ∧ 1 ≤ c.2 ∧ c.2 ≤ 2147483647) :
    ∃ states total, (Dice.ofSeed seed).history calls = some states ∧
      engineCalls ((Dice.ofSeed seed).gen, 0) calls = some total ∧
      states.length = calls.length + 1 ∧
      (total < 2147483646 → states.Nodup) := by
  obtain ⟨rest, total, hhist, hcalls, _, hlen, hmem, hnd⟩ :=
    history_orbit calls (Dice.ofSeed seed).gen 0 (Dice.ofSeed_valid seed) h
  have hm : modulus = 2147483647 := rfl
  refine ⟨Dice.ofSeed seed :: rest, total, hhist, hcalls, by simp [hlen], fun hlt => ?_⟩
  refine List.nodup_cons.2 ⟨?_, hnd (by omega)⟩
  intro hin
  obtain ⟨j, hj1, hj2, hj3⟩ := hmem _ hin
  exact MinstdRand.iterate_ne (Dice.ofSeed_valid seed) hj1 (by omega) hj3.symm

theorem state_never_repeats_witness :
    ∃ states total, (Dice.ofSeed 42).history [(2, 6), (1, 6)] = some states ∧
      engineCalls ((Dice.ofSeed 42).gen, 0) [(2, 6), (1, 6)] = some total ∧
      states.length = [((2 : Int), (6 : Int)), (1, 6)].length + 1 ∧
      (total < 2147483646 → states.Nodup) :=
  state_never_repeats 42 [(2, 6), (1, 6)] (by decide)

/-! ## The distribution as a function of the engine values -/

theorem div_eq_iff_bounds {x k q : Nat} (hk : 0 < k) :
    x / k = q ↔ q * k ≤ x ∧ x < (q + 1) * k := by
  constructor
  · rintro rfl
    exact ⟨(Nat.le_div_iff_mul_le hk).1 (le_refl _),
      (Nat.div_lt_iff_lt_mul hk).1 (Nat.lt_succ_self _)⟩
  · rintro ⟨h1, h2⟩
    exact le_antisymm (Nat.lt_succ_iff.1 ((Nat.div_lt_iff_lt_mul hk).2 h2))
      ((Nat.le_div_iff_mul_le hk).2 h1)

theorem scripted_call (o : Nat) (rest : List Nat) : scripted.call (o :: rest) = (o, rest) := rfl

theorem scripted_min : scripted.min = 1 := rfl

theorem scripted_max : scripted.max = 2147483646 := rfl

theorem rejectLoop_scripted_one (past o : Nat) (rest : List Nat) (h1 : 1 ≤ o)
    (h2 : o ≤ 2147483646) :
    rejectLoop scripted past 1 (o :: rest)
      = if past ≤ o - 1 then none else some (o - 1, rest) := by
  rw [rejectLoop, scripted_call, scripted_min, usub_of_le h1 (by omega)]
  by_cases h : past ≤ o - 1
  · rw [if_pos h, if_pos h, rejectLoop]
  · rw [if_neg h, if_neg h]

/-- One pass of the downscaling branch: the engine value `o` is rejected when
`o - 1` reaches `past = size * scaling`, and gives `(o - 1) / scaling + 1` otherwise. -/
theorem attempt_down (n o : Nat) (hn1 : 1 ≤ n) (hn2 : n ≤ 2147483645) (h1 : 1 ≤ o)
    (h2 : o ≤ 2147483646) :
    attempt (n : Int) [o]
      = if n * (2147483645 / n) ≤ o - 1 then none
        else some ((((o - 1) / (2147483645 / n) + 1 : Nat) : Int)) := by
  have hur : usub (toU64 (n : Int)) (toU64 1) = n - 1 := by
    rw [toU64_of_nonneg (by omega) (by omega), toU64_of_nonneg (by omega) (by omega)]
    simp only [Int.toNat_ofNat, Int.toNat_one]
    exact usub_of_le hn1 (by omega)
  have hsc : 0 < 2147483645 / n := Nat.div_pos hn2 (by omega)
  unfold attempt
  rw [uniformIntAux_down _ _ _ _ _ _ (by rw [hur, scripted_max, scripted_min]; omega)]
  rw [hur, scripted_max, scripted_min]
  have e1 : n - 1 + 1 = n := by omega
  have e2 : 2147483646 - 1 = 2147483645 := by norm_num
  rw [e1, e2, rejectLoop_scripted_one _ _ _ h1 h2]
  by_cases h : n * (2147483645 / n) ≤ o - 1
  · rw [if_pos h, if_pos h]
    rfl
  · rw [if_neg h, if_neg h]
    have hq : (o - 1) / (2147483645 / n) < n :=
      Nat.div_lt_of_lt_mul (by rw [Nat.mul_comm]; omega)
    have key : ∀ q : Nat, q < n →
        toInt32 (((q + toU64 1) % 18446744073709551616 : Nat) : Int) = ((q + 1 : Nat) : Int) := by
      intro q hq
      rw [toU64_of_nonneg (show (0 : Int) ≤ 1 by decide) (by decide), Int.toNat_one,
        Nat.mod_eq_of_lt (by omega), toInt32_of_range (by omega) (by omega)]
    simp only [Option.map_some', key _ hq]

/-- One pass of the branch taken for `size = 2147483646`: every engine value is
accepted and returned as it is. -/
theorem attempt_direct (o : Nat) (h1 : 1 ≤ o) (h2 : o ≤ 2147483646) :
    attempt 2147483646 [o] = some (o : Int) := by
  unfold attempt
  rw [uniformIntAux_direct _ _ _ _ _ _ (by decide)]
  rw [scripted_call, scripted_min, usub_of_le h1 (by omega)]
  simp only [Option.map_some', toU64_of_nonneg (show (0 : Int) ≤ 1 by decide) (by decide),
    Int.toNat_one]
  rw [show o - 1 + 1 = o by omega, Nat.mod_eq_of_lt (by omega),
    toInt32_of_range (by omega) (by omega)]

theorem inner_scripted (o : Nat) (rest : List Nat) (h1 : 1 ≤ o) (h2 : o ≤ 2147483646) :
    uniformIntAux scripted 1 63 0 1 (o :: rest)
      = if 2147483644 ≤ o - 1 then none
        else some ((((o - 1) / 1073741822 : Nat) : Int), rest) := by
  have e : uniformIntAux scripted 1 63 0 1 (o :: rest)
      = (rejectLoop scripted 2147483644 1 (o :: rest)).map
        (fun r => (toInt32 (((r.1 / 1073741822 + 0) % 18446744073709551616 : Nat) : Int),
          r.2)) := by
    rw [uniformIntAux_down _ _ _ _ _ _ (by decide)]
    rfl
  rw [e, rejectLoop_scripted_one _ _ _ h1 h2]
  by_cases h : 2147483644 ≤ o - 1
  · rw [if_pos h, if_pos h]
    rfl
  · rw [if_neg h, if_neg h]
    have key : ∀ q : Nat, q ≤ 1 →
        toInt32 (((q + 0) % 18446744073709551616 : Nat) : Int) = (q : Int) := by
      intro q hq
      rw [Nat.add_zero, Nat.mod_eq_of_lt (by omega), toInt32_of_range (by omega) (by omega)]
    simp only [Option.map_some', key _ (show (o - 1) / 1073741822 ≤ 1 by omega)]

/-- One pass of the upscaling branch, taken for `size = 2147483647`, over the two
engine values `o1` (high part) and `o2` (low part). -/
theorem attempt_up (o1 o2 : Nat) (h1 : 1 ≤ o1) (h2 : o1 ≤ 2147483646) (h3 : 1 ≤ o2)
    (h4 : o2 ≤ 2147483646) :
    attempt 2147483647 [o1, o2]
      = if 2147483644 ≤ o1 - 1 then none
        else if (o1 - 1) / 1073741822 = 0 then some (o2 : Int)
        else if o2 = 1 then some 2147483647 else none := by
  have hur : usub (toU64 2147483647) (toU64 1) = 2147483646 := by decide
  have hpar : toInt32 ((2147483646 / ((scripted.max - scripted.min + 1) % 18446744073709551616)
      : Nat) : Int) = 1 := by decide
  have e0 : (scripted.max - 1 + 1) % 18446744073709551616 = 2147483646 := by decide
  unfold attempt
  rw [uniformIntAux_up _ _ _ _ _ _ (by rw [hur]; decide), hur, hpar, upscaleLoop,
    inner_scripted o1 [o2] h1 h2]
  by_cases hrej : 2147483644 ≤ o1 - 1
  · rw [if_pos hrej, if_pos hrej]
    rfl
  · rw [if_neg hrej, if_neg hrej]
    simp only [scripted_call, scripted_min, e0]
    rw [usub_of_le h3 (by omega)]
    have hq : ∀ q : Nat, q ≤ 1 → toU64 (q : Int) = q := by
      intro q hq
      rw [toU64_of_nonneg (by omega) (by omega)]
      simp
    rw [hq _ (show (o1 - 1) / 1073741822 ≤ 1 by omega)]
    have hv : ∀ r : Nat, r ≤ 2147483646 →
        toInt32 (((r + toU64 1) % 18446744073709551616 : Nat) : Int) = ((r + 1 : Nat) : Int) := by
      intro r hr
      rw [toU64_of_nonneg (show (0 : Int) ≤ 1 by decide) (by decide), Int.toNat_one,
        Nat.mod_eq_of_lt (by omega), toInt32_of_range (by omega) (by omega)]
    have t0 : 2147483646 * 0 % 18446744073709551616 = 0 := by norm_num
    have t1 : 2147483646 * 1 % 18446744073709551616 = 2147483646 := by norm_num
    have m0 : (0 + (o2 - 1)) % 18446744073709551616 = o2 - 1 := by
      rw [Nat.zero_add, Nat.mod_eq_of_lt (by omega)]
    have m1 : (2147483646 + (o2 - 1)) % 18446744073709551616 = 2147483646 + (o2 - 1) :=
      Nat.mod_eq_of_lt (by omega)
    rcases (show (o1 - 1) / 1073741822 = 0 ∨ (o1 - 1) / 1073741822 = 1 by omega) with q0 | q1
    · rw [q0, t0, m0, if_neg (show ¬ (2147483646 < o2 - 1 ∨ o2 - 1 < 0) by omega), if_pos rfl]
      simp only [Option.map_some', hv _ (show o2 - 1 ≤ 2147483646 by omega)]
      rw [show o2 - 1 + 1 = o2 by omega]
    · rw [q1, t1, m1, if_neg (show ¬ ((1 : Nat) = 0) by omega)]
      by_cases ho : o2 = 1
      · subst ho
        rw [if_neg (show ¬ (2147483646 < 2147483646 + (1 - 1) ∨
          2147483646 + (1 - 1) < 2147483646) by omega), if_pos rfl]
        simp only [Option.map_some']
        decide
      · rw [if_pos (show 2147483646 < 2147483646 + (o2 - 1) ∨
          2147483646 + (o2 - 1) < 2147483646 by omega), if_neg ho, upscaleLoop]
        rfl

/-! ## Counting the engine values behind each drawn value -/

theorem count_down (n k : Nat) (hn1 : 1 ≤ n) (hn2 : n ≤ 2147483645) (hk : k < n) :
    ((Finset.Icc 1 2147483646).filter
        (fun o => attempt (n : Int) [o] = some (((k + 1 : Nat) : Int)))).card
      = 2147483645 / n := by
  have hsc : 0 < 2147483645 / n := Nat.div_pos hn2 (by omega)
  have hpast : n * (2147483645 / n) ≤ 2147483645 := Nat.mul_div_le _ _
  have hsucc : (k + 1) * (2147483645 / n) = k * (2147483645 / n) + 2147483645 / n :=
    Nat.succ_mul _ _
  have hle : (k + 1) * (2147483645 / n) ≤ n * (2147483645 / n) :=
    Nat.mul_le_mul_right _ (by omega)
  have hset : (Finset.Icc 1 2147483646).filter
        (fun o => attempt (n : Int) [o] = some (((k + 1 : Nat) : Int)))
      = Finset.Icc (k * (2147483645 / n) + 1) ((k + 1) * (2147483645 / n)) := by
    ext o
    simp only [Finset.mem_filter, Finset.mem_Icc]
    constructor
    · rintro ⟨⟨h1, h2⟩, hatt⟩
      rw [attempt_down n o hn1 hn2 h1 h2] at hatt
      by_cases hr : n * (2147483645 / n) ≤ o - 1
      · rw [if_pos hr] at hatt
        cases hatt
      · rw [if_neg hr] at hatt
        have hq : (o - 1) / (2147483645 / n) = k := by
          have := Option.some.inj hatt
          omega
        obtain ⟨b1, b2⟩ := (div_eq_iff_bounds hsc).1 hq
        omega
    · rintro ⟨h1, h2⟩
      have ho1 : 1 ≤ o := by omega
      have ho2 : o ≤ 2147483646 := by omega
      refine ⟨⟨ho1, ho2⟩, ?_⟩
      rw [attempt_down n o hn1 hn2 ho1 ho2, if_neg (by omega)]
      have hq : (o - 1) / (2147483645 / n) = k :=
        (div_eq_iff_bounds hsc).2 ⟨by omega, by omega⟩
      rw [hq]
  rw [hset, Nat.card_Icc]
  omega

theorem count_direct (v : Nat) (hv1 : 1 ≤ v) (hv2 : v ≤ 2147483646) :
    ((Finset.Icc 1 2147483646).filter
        (fun o => attempt 2147483646 [o] = some (v : Int))).card = 1 := by
  have hset : (Finset.Icc 1 2147483646).filter
        (fun o => attempt 2147483646 [o] = some (v : Int)) = {v} := by
    ext o
    simp only [Finset.mem_filter, Finset.mem_Icc, Finset.mem_singleton]
    constructor
    · rintro ⟨⟨h1, h2⟩, hatt⟩
      rw [attempt_direct o h1 h2] at hatt
      have := Option.some.inj hatt
      omega
    · rintro rfl
      exact ⟨⟨hv1, hv2⟩, attempt_direct o hv1 hv2⟩
  rw [hset, Finset.card_singleton]

/-- Over all pairs of engine values, taken freely, every value of
`[1, 2147483647]` comes from `1073741822` accepted pairs.  An engine whose second
value is determined by the first, as `std::minstd_rand`, produces only some of
these pairs. -/
theorem count_up (v : Nat) (hv1 : 1 ≤ v) (hv2 : v ≤ 2147483647) :
    ((Finset.Icc 1 2147483646 ×ˢ Finset.Icc 1 2147483646).filter
        (fun p => attempt 2147483647 [p.1, p.2] = some (v : Int))).card = 1073741822 := by
  by_cases hv : v = 2147483647
  · subst hv
    have hset : (Finset.Icc 1 2147483646 ×ˢ Finset.Icc 1 2147483646).filter
          (fun p => attempt 2147483647 [p.1, p.2] = some ((2147483647 : Nat) : Int))
        = Finset.Icc 1073741823 2147483644 ×ˢ {1} := by
      ext p
      obtain ⟨o1, o2⟩ := p
      simp only [Finset.mem_filter, Finset.mem_product, Finset.mem_Icc, Finset.mem_singleton]
      constructor
      · rintro ⟨⟨⟨h1, h2⟩, h3, h4⟩, hatt⟩
        rw [attempt_up o1 o2 h1 h2 h3 h4] at hatt
        split_ifs at hatt with c1 c2 c3
        · have := Option.some.inj hatt
          omega
        · omega
      · rintro ⟨⟨h1, h2⟩, rfl⟩
        refine ⟨⟨⟨by omega, by omega⟩, le_refl _, by omega⟩, ?_⟩
        rw [attempt_up o1 1 (by omega) (by omega) (le_refl _) (by omega),
          if_neg (by omega), if_neg (by omega), if_pos rfl]
        rfl
    rw [hset, Finset.card_product, Nat.card_Icc, Finset.card_singleton]
  · have hset : (Finset.Icc 1 2147483646 ×ˢ Finset.Icc 1 2147483646).filter
          (fun p => attempt 2147483647 [p.1, p.2] = some (v : Int))
        = Finset.Icc 1 1073741822 ×ˢ {v} := by
      ext p
      obtain ⟨o1, o2⟩ := p
      simp only [Finset.mem_filter, Finset.mem_product, Finset.mem_Icc, Finset.mem_singleton]
      constructor
      · rintro ⟨⟨⟨h1, h2⟩, h3, h4⟩, hatt⟩
        rw [attempt_up o1 o2 h1 h2 h3 h4] at hatt
        split_ifs at hatt with c1 c2 c3
        · have := Option.some.inj hatt
          omega
        · have := Option.some.inj hatt
          omega
      · rintro ⟨⟨h1, h2⟩, rfl⟩
        refine ⟨⟨⟨by omega, by omega⟩, hv1, by omega⟩, ?_⟩
        rw [attempt_up o1 o2 (by omega) (by omega) hv1 (by omega),
          if_neg (by omega), if_pos (by omega)]
    rw [hset, Finset.card_product, Nat.card_Icc, Finset.card_singleton]

/-- The pass over the engine values is the draw made inside `roll`: when the
distribution accepts the next value of `std::minstd_rand`, the draw returns the
value of the pass and consumes exactly that engine value. -/
theorem draw_of_attempt {size : Int} (h1 : 1 ≤ size) (h2 : size ≤ 2147483645)
    {g : MinstdRand} (hg : g.Valid) {v : Int} (h : attempt size [g.step.x] = some v) :
    uniformInt minstd 1 size g = some (v, g.step) := by
  obtain ⟨n, rfl⟩ : ∃ n : Nat, size = (n : Int) := ⟨size.toNat, by omega⟩
  have hv := MinstdRand.valid_step hg
  have hm : modulus = 2147483647 := rfl
  have hx1 : 1 ≤ g.step.x := hv.1
  have hx2 : g.step.x ≤ 2147483646 := by have := hv.2; omega
  rw [attempt_down n g.step.x (by omega) (by omega) hx1 hx2] at h
  by_cases hr : n * (2147483645 / n) ≤ g.step.x - 1
  · rw [if_pos hr] at h
    cases h
  · rw [if_neg hr] at h
    have hur : usub (toU64 (n : Int)) (toU64 1) = n - 1 := by
      rw [toU64_of_nonneg (by omega) (by omega), toU64_of_nonneg (by omega) (by omega)]
      simp only [Int.toNat_ofNat, Int.toNat_one]
      exact usub_of_le (by omega) (by omega)
    obtain ⟨j, hj1, hj2, _, heq⟩ := rejectLoop_minstd (n * (2147483645 / n)) 1 loopBound g
      (le_refl _) (by decide) hg (by rw [Function.iterate_one]; omega)
    have hj : j = 1 := by omega
    subst hj
    rw [Function.iterate_one] at heq
    have hq : (g.step.x - 1) / (2147483645 / n) < n :=
      Nat.div_lt_of_lt_mul (by rw [Nat.mul_comm]; omega)
    have key : ∀ q : Nat, q < n →
        toInt32 (((q + toU64 1) % 18446744073709551616 : Nat) : Int) = ((q + 1 : Nat) : Int) := by
      intro q hq
      rw [toU64_of_nonneg (show (0 : Int) ≤ 1 by decide) (by decide), Int.toNat_one,
        Nat.mod_eq_of_lt (by omega), toInt32_of_range (by omega) (by omega)]
    unfold uniformInt
    rw [uniformIntAux_down _ _ _ _ _ _ (by rw [hur, minstd_max, minstd_min]; omega)]
    rw [hur, minstd_max, minstd_min]
    have e1 : n - 1 + 1 = n := by omega
    have e2 : 2147483646 - 1 = 2147483645 := by norm_num
    rw [e1, e2, heq]
    simp only [Option.map_some', key _ hq]
    rw [Option.some.inj h]

/-! ## The engine step as a bijection of the valid states -/

/-- After `m - 1` steps a valid state is back where it started. -/
theorem MinstdRand.iterate_period {g : MinstdRand} (hg : g.Valid) :
    MinstdRand.step^[modulus - 1] g = g := by
  have hx := MinstdRand.iterate_x hg (modulus - 1)
  have h1 : ((multiplier ^ (modulus - 1) * g.x : Nat) : ZMod modulus)
      = ((g.x : Nat) : ZMod modulus) := by
    push_cast
    rw [multiplier_pow_period, one_mul]
  rw [ZMod.natCast_eq_natCast_iff', Nat.mod_eq_of_lt hg.2] at h1
  rw [h1] at hx
  cases hs : MinstdRand.step^[modulus - 1] g with
  | mk x =>
    rw [hs] at hx
    cases g with
    | mk y => simp only at hx; rw [hx]

/-- Every valid state is the successor of a valid state. -/
theorem MinstdRand.exists_pred {g : MinstdRand} (hg : g.Valid) :
    ∃ p : MinstdRand, p.Valid ∧ p.step = g := by
  refine ⟨MinstdRand.step^[modulus - 2] g, MinstdRand.valid_iterate hg _, ?_⟩
  rw [← Function.iterate_succ_apply' MinstdRand.step (modulus - 2) g]
  exact MinstdRand.iterate_period hg

/-- Two valid states with the same successor are equal. -/
theorem MinstdRand.step_inj {g h : MinstdRand} (hg : g.Valid) (hh : h.Valid)
    (e : g.step = h.step) : g = h := by
  have e1 : MinstdRand.step^[modulus - 2] g.step = MinstdRand.step^[modulus - 2] h.step := by
    rw [e]
  rw [← Function.iterate_succ_apply MinstdRand.step (modulus - 2) g,
    ← Function.iterate_succ_apply MinstdRand.step (modulus - 2) h] at e1
  have hp : (modulus - 2).succ = modulus - 1 := by decide
  rw [hp, MinstdRand.iterate_period hg, MinstdRand.iterate_period hh] at e1
  exact e1

/-! ## The draw made inside `roll` in terms of the accepted engine value -/

/-- A draw of the downscaling branch ends on the first engine value `o` with
`o - 1 < size * scaling` and returns `(o - 1) / scaling + 1`. -/
theorem draw_down_eq {n : Nat} (hn1 : 1 ≤ n) (hn2 : n ≤ 2147483645) {g : MinstdRand}
    (hg : g.Valid) :
    ∃ j, 1 ≤ j ∧ (MinstdRand.step^[j] g).x - 1 < n * (2147483645 / n) ∧
      uniformInt minstd 1 (n : Int) g
        = some (((((MinstdRand.step^[j] g).x - 1) / (2147483645 / n) + 1 : Nat) : Int),
          MinstdRand.step^[j] g) := by
  have hur : usub (toU64 (n : Int)) (toU64 1) = n - 1 := by
    rw [toU64_of_nonneg (by omega) (by omega), toU64_of_nonneg (by omega) (by omega)]
    simp only [Int.toNat_ofNat, Int.toNat_one]
    exact usub_of_le hn1 (by omega)
  have hsc : 0 < 2147483645 / n := Nat.div_pos hn2 (by omega)
  have hpast : 0 < n * (2147483645 / n) := Nat.mul_pos (by omega) hsc
  obtain ⟨j, hj1, _, hlt, heq⟩ := rejectLoop_minstd_terminates hpast hg
  have hq : ((MinstdRand.step^[j] g).x - 1) / (2147483645 / n) < n :=
    Nat.div_lt_of_lt_mul (by rw [Nat.mul_comm]; exact hlt)
  have key : ∀ q : Nat, q < n →
      toInt32 (((q + toU64 1) % 18446744073709551616 : Nat) : Int) = ((q + 1 : Nat) : Int) := by
    intro q hq
    rw [toU64_of_nonneg (show (0 : Int) ≤ 1 by decide) (by decide), Int.toNat_one,
      Nat.mod_eq_of_lt (by omega), toInt32_of_range (by omega) (by omega)]
  refine ⟨j, hj1, hlt, ?_⟩
  unfold uniformInt
  rw [uniformIntAux_down _ _ _ _ _ _ (by rw [hur, minstd_max, minstd_min]; omega)]
  rw [hur, minstd_max, minstd_min]
  have e1 : n - 1 + 1 = n := by omega
  have e2 : 2147483646 - 1 = 2147483645 := by norm_num
  rw [e1, e2, heq]
  simp only [Option.map_some', key _ hq]

/-- A draw for `size = 2147483646` returns the next engine value as it is. -/
theorem draw_direct_eq {g : MinstdRand} (hg : g.Valid) :
    uniformInt minstd 1 2147483646 g = some ((g.step.x : Int), g.step) := by
  have hv := MinstdRand.valid_step hg
  have hm : modulus = 2147483647 := rfl
  have h1 := hv.1
  have h2 := hv.2
  unfold uniformInt
  rw [uniformIntAux_direct _ _ _ _ _ _ (by decide)]
  rw [minstd_call, minstd_min, usub_of_le hv.1 (by omega)]
  simp only [toU64_of_nonneg (show (0 : Int) ≤ 1 by decide) (by decide), Int.toNat_one]
  rw [show g.step.x - 1 + 1 = g.step.x by omega, Nat.mod_eq_of_lt (by omega),
    toInt32_of_range (by omega) (by omega)]

theorem MinstdRand.valid_mk {x : Nat} (h1 : 1 ≤ x) (h2 : x ≤ 2147483646) :
    (⟨x⟩ : MinstdRand).Valid := by
  unfold MinstdRand.Valid
  rw [show modulus = 2147483647 from rfl]
  exact ⟨h1, Nat.lt_succ_of_le h2⟩

theorem MinstdRand.valid_range {g : MinstdRand} (hg : g.Valid) :
    1 ≤ g.x ∧ g.x ≤ 2147483646 := by
  unfold MinstdRand.Valid at hg
  rw [show modulus = 2147483647 from rfl] at hg
  exact ⟨hg.1, by omega⟩

/-- For `size ≤ 2147483645`, some draw returning `v` ends on the engine value `o`
exactly when the distribution accepts `o` with value `v`. -/
theorem draw_ends_iff_down {n : Nat} (hn1 : 1 ≤ n) (hn2 : n ≤ 2147483645) (v : Int)
    {o : Nat} (ho1 : 1 ≤ o) (ho2 : o ≤ 2147483646) :
    (∃ x ∈ Finset.Icc 1 2147483646, uniformInt minstd 1 (n : Int) ⟨x⟩ = some (v, ⟨o⟩))
      ↔ attempt (n : Int) [o] = some v := by
  constructor
  · rintro ⟨x, hx, hdraw⟩
    rw [Finset.mem_Icc] at hx
    obtain ⟨j, _, hlt, heq⟩ := draw_down_eq hn1 hn2 (MinstdRand.valid_mk hx.1 hx.2)
    have hpair := Option.some.inj (heq.symm.trans hdraw)
    have hst : (MinstdRand.step^[j] ⟨x⟩).x = o := by rw [(Prod.mk.inj hpair).2]
    have hval := (Prod.mk.inj hpair).1
    rw [hst] at hlt hval
    rw [attempt_down n o hn1 hn2 ho1 ho2, if_neg (by omega), hval]
  · intro hatt
    obtain ⟨p, hp, hstep⟩ := MinstdRand.exists_pred (MinstdRand.valid_mk ho1 ho2)
    have hpx := MinstdRand.valid_range hp
    refine ⟨p.x, Finset.mem_Icc.2 hpx, ?_⟩
    have hatt2 : attempt (n : Int) [p.step.x] = some v := by rw [hstep]; exact hatt
    have := draw_of_attempt (by omega) (by omega) hp hatt2
    rw [hstep] at this
    exact this

/-- For `size = 2147483646`, some draw returning `v` ends on the engine value `o`
exactly when `v = o`. -/
theorem draw_ends_iff_direct (v : Int) {o : Nat} (ho1 : 1 ≤ o) (ho2 : o ≤ 2147483646) :
    (∃ x ∈ Finset.Icc 1 2147483646, uniformInt minstd 1 2147483646 ⟨x⟩ = some (v, ⟨o⟩))
      ↔ attempt 2147483646 [o] = some v := by
  rw [attempt_direct o ho1 ho2]
  constructor
  · rintro ⟨x, hx, hdraw⟩
    rw [Finset.mem_Icc] at hx
    have heq := draw_direct_eq (MinstdRand.valid_mk hx.1 hx.2)
    have hpair := Option.some.inj (heq.symm.trans hdraw)
    have hst : (⟨x⟩ : MinstdRand).step.x = o := by rw [(Prod.mk.inj hpair).2]
    have hval := (Prod.mk.inj hpair).1
    rw [hst] at hval
    rw [hval]
  · intro hv
    obtain ⟨p, hp, hstep⟩ := MinstdRand.exists_pred (MinstdRand.valid_mk ho1 ho2)
    have hpx := MinstdRand.valid_range hp
    refine ⟨p.x, Finset.mem_Icc.2 hpx, ?_⟩
    have := draw_direct_eq hp
    rw [hstep] at this
    rw [← Option.some.inj hv]
    exact this

/-! ## The draw for `size = 2147483647` in terms of the engine values it reads -/

theorem rejectLoop_minstd_succ (past fuel : Nat) {g : MinstdRand} (hg : g.Valid) :
    rejectLoop minstd past (fuel + 1) g
      = if past ≤ g.step.x - 1 then rejectLoop minstd past fuel g.step
        else some (g.step.x - 1, g.step) := by
  have hv := MinstdRand.valid_step hg
  rw [rejectLoop, minstd_call, minstd_min, usub_of_le hv.1 (lt_trans hv.2 (by decide))]

/-- A value returned by the rejection loop is the engine value it ended on, less
one, and is below the acceptance bound. -/
theorem rejectLoop_minstd_result (past : Nat) : ∀ (fuel : Nat) (g : MinstdRand) (r : Nat)
    (g1 : MinstdRand), g.Valid → rejectLoop minstd past fuel g = some (r, g1) →
    g1.Valid ∧ r = g1.x - 1 ∧ r < past := by
  intro fuel
  induction fuel with
  | zero =>
    intro g r g1 _ h
    have e : rejectLoop minstd past 0 g = none := by rw [rejectLoop]
    cases e.symm.trans h
  | succ fuel ih =>
    intro g r g1 hg h
    have hv := MinstdRand.valid_step hg
    by_cases hp : past ≤ g.step.x - 1
    · have e : rejectLoop minstd past (fuel + 1) g = rejectLoop minstd past fuel g.step := by
        rw [rejectLoop_minstd_succ past fuel hg, if_pos hp]
      exact ih g.step r g1 hv (e.symm.trans h)
    · have e : rejectLoop minstd past (fuel + 1) g = some (g.step.x - 1, g.step) := by
        rw [rejectLoop_minstd_succ past fuel hg, if_neg hp]
      have hpair := Prod.mk.inj (Option.some.inj (e.symm.trans h))
      rw [← hpair.1, ← hpair.2]
      exact ⟨hv, rfl, by omega⟩

theorem upscaleLoop_minstd_none (inner : MinstdRand → Option (Int × MinstdRand))
    (hinner : ∀ s, inner s = (rejectLoop minstd 2147483644 loopBound s).map
        (fun r => (toInt32 (((r.1 / 1073741822 + 0) % 18446744073709551616 : Nat) : Int),
          r.2)))
    (fuel : Nat) {g : MinstdRand}
    (hr : rejectLoop minstd 2147483644 loopBound g = none) :
    upscaleLoop minstd inner 2147483646 (fuel + 1) g = none := by
  rw [upscaleLoop, hinner, hr]
  rfl

/-- One iteration of the upscaling loop on `std::minstd_rand`: `g1` is the state on
which the recursive draw from `[0, 1]` ended, the low part is the engine value
after it. -/
theorem upscaleLoop_minstd_succ (inner : MinstdRand → Option (Int × MinstdRand))
    (hinner : ∀ s, inner s = (rejectLoop minstd 2147483644 loopBound s).map
        (fun r => (toInt32 (((r.1 / 1073741822 + 0) % 18446744073709551616 : Nat) : Int),
          r.2)))
    (fuel : Nat) {g g1 : MinstdRand} (hg1 : g1.Valid) (hlt : g1.x - 1 < 2147483644)
    (hr : rejectLoop minstd 2147483644 loopBound g = some (g1.x - 1, g1)) :
    upscaleLoop minstd inner 2147483646 (fuel + 1) g
      = if (g1.x - 1) / 1073741822 = 0 then some (g1.step.x - 1, g1.step)
        else if g1.step.x - 1 = 0 then some (2147483646, g1.step)
        else upscaleLoop minstd inner 2147483646 fuel g1.step := by
  have hm : modulus = 2147483647 := rfl
  have hg2 := MinstdRand.valid_step hg1
  have hlow : g1.step.x - 1 ≤ 2147483645 := by have := hg2.2; omega
  rw [upscaleLoop, hinner, hr]
  simp only [Option.map_some', minstd_call, minstd_min, minstd_max]
  rw [usub_of_le hg2.1 (by have := hg2.2; omega), toU64_high _ hlt]
  have e0 : (2147483646 - 1 + 1) % 18446744073709551616 = 2147483646 := by norm_num
  have t0 : 2147483646 * 0 % 18446744073709551616 = 0 := by norm_num
  have t1 : 2147483646 * 1 % 18446744073709551616 = 2147483646 := by norm_num
  rw [e0]
  generalize g1.step.x - 1 = low at hlow
  have m0 : (0 + low) % 18446744073709551616 = low := by
    rw [Nat.zero_add, Nat.mod_eq_of_lt (by omega)]
  have m1 : (2147483646 + low) % 18446744073709551616 = 2147483646 + low :=
    Nat.mod_eq_of_lt (by omega)
  rcases (show (g1.x - 1) / 1073741822 = 0 ∨ (g1.x - 1) / 1073741822 = 1 by omega)
    with h0 | h1
  · rw [h0, t0, m0, if_neg (show ¬ (2147483646 < low ∨ low < 0) by omega), if_pos rfl]
  · rw [h1, t1, m1, if_neg (show ¬ ((1 : Nat) = 0) by omega)]
    by_cases hz : low = 0
    · rw [if_pos hz, hz, if_neg (show ¬ (2147483646 < 2147483646 + 0 ∨
        2147483646 + 0 < 2147483646) by omega)]
    · rw [if_neg hz, if_pos (show 2147483646 < 2147483646 + low ∨
        2147483646 + low < 2147483646 by omega)]

/-- A value returned by the upscaling loop comes from two successive engine
values: the state `g1` read for the high part and its successor read for the low
part.  Either the high part is `0` (`g1.x ≤ 1073741822`) and the value is the low
part, or the value is `2147483646`. -/
theorem upscaleLoop_minstd_result (inner : MinstdRand → Option (Int × MinstdRand))
    (hinner : ∀ s, inner s = (rejectLoop minstd 2147483644 loopBound s).map
        (fun r => (toInt32 (((r.1 / 1073741822 + 0) % 18446744073709551616 : Nat) : Int),
          r.2))) :
    ∀ (fuel : Nat) (g : MinstdRand) (ret : Nat) (g2 : MinstdRand), g.Valid →
      upscaleLoop minstd inner 2147483646 fuel g = some (ret, g2) →
      ∃ g1 : MinstdRand, g1.Valid ∧ g2 = g1.step ∧ ret ≤ 2147483646 ∧
        ((g1.x ≤ 1073741822 ∧ ret = g2.x - 1) ∨ ret = 2147483646) := by
  intro fuel
  induction fuel with
  | zero =>
    intro g ret g2 _ h
    have e : upscaleLoop minstd inner 2147483646 0 g = none := by rw [upscaleLoop]
    cases e.symm.trans h
  | succ fuel ih =>
    intro g ret g2 hg h
    have hm : modulus = 2147483647 := rfl
    cases hr : rejectLoop minstd 2147483644 loopBound g with
    | none =>
      cases (upscaleLoop_minstd_none inner hinner fuel hr).symm.trans h
    | some p =>
      obtain ⟨r, g1⟩ := p
      obtain ⟨hg1, hreq, hlt⟩ := rejectLoop_minstd_result 2147483644 loopBound g r g1 hg hr
      rw [hreq] at hr hlt
      have hg2 := MinstdRand.valid_step hg1
      have hlow : g1.step.x - 1 ≤ 2147483645 := by have := hg2.2; omega
      have e := upscaleLoop_minstd_succ inner hinner fuel hg1 hlt hr
      by_cases h0 : (g1.x - 1) / 1073741822 = 0
      · rw [if_pos h0] at e
        have hpair := Prod.mk.inj (Option.some.inj (e.symm.trans h))
        refine ⟨g1, hg1, hpair.2.symm, by omega, Or.inl ⟨by omega, ?_⟩⟩
        rw [← hpair.1, ← hpair.2]
      · rw [if_neg h0] at e
        by_cases hz : g1.step.x - 1 = 0
        · rw [if_pos hz] at e
          have hpair := Prod.mk.inj (Option.some.inj (e.symm.trans h))
          exact ⟨g1, hg1, hpair.2.symm, by omega, Or.inr hpair.1.symm⟩
        · rw [if_neg hz] at e
          exact ih g1.step ret g2 hg2 (e.symm.trans h)

/-- A draw of `dist(1, 2147483647)` that returns a value below `2147483647` has
read a high engine value `g1.x ≤ 1073741822` and returns the engine value that
follows it. -/
theorem draw_up_result {g g2 : MinstdRand} {v : Int} (hg : g.Valid)
    (h : uniformInt minstd 1 2147483647 g = some (v, g2)) :
    ∃ g1 : MinstdRand, g1.Valid ∧ g2 = g1.step ∧
      ((g1.x ≤ 1073741822 ∧ v = (g2.x : Int)) ∨ v = 2147483647) := by
  have hur : usub (toU64 2147483647) (toU64 1) = 2147483646 := by decide
  have hpar : toInt32 ((2147483646 / ((minstd.max - minstd.min + 1) % 18446744073709551616)
      : Nat) : Int) = 1 := by decide
  have hm : modulus = 2147483647 := rfl
  have e : uniformInt minstd 1 2147483647 g
      = (upscaleLoop minstd (uniformIntAux minstd loopBound 63 0 1) 2147483646 loopBound g).map
        (fun r => (toInt32 (((r.1 + toU64 1) % 18446744073709551616 : Nat) : Int), r.2)) := by
    unfold uniformInt
    rw [uniformIntAux_up _ _ _ _ _ _ (by rw [hur]; decide), hur, hpar]
  cases hu : upscaleLoop minstd (uniformIntAux minstd loopBound 63 0 1) 2147483646 loopBound g with
  | none =>
    rw [hu] at e
    cases e.symm.trans h
  | some p =>
    obtain ⟨ret, g3⟩ := p
    rw [hu] at e
    obtain ⟨g1, hg1, hst, hret, hcase⟩ :=
      upscaleLoop_minstd_result _ inner_eq loopBound g ret g3 hg hu
    have hv : toInt32 (((ret + toU64 1) % 18446744073709551616 : Nat) : Int)
        = ((ret + 1 : Nat) : Int) := by
      rw [toU64_of_nonneg (show (0 : Int) ≤ 1 by decide) (by decide), Int.toNat_one,
        Nat.mod_eq_of_lt (by omega), toInt32_of_range (by omega) (by omega)]
    have e2 : some (((ret + 1 : Nat) : Int), g3) = some (v, g2) := by
      rw [← hv]
      exact e.symm.trans h
    have hpair := Prod.mk.inj (Option.some.inj e2)
    have hg3 : g3.Valid := by rw [hst]; exact MinstdRand.valid_step hg1
    have hx := hg3.1
    refine ⟨g1, hg1, by rw [← hpair.2]; exact hst, ?_⟩
    rcases hcase with ⟨h1, h2⟩ | h2
    · left
      refine ⟨h1, ?_⟩
      rw [← hpair.1, ← hpair.2, h2]
      omega
    · right
      rw [← hpair.1, h2]
      rfl

/-- At `size = 2147483647` no draw on any generator state returns `1`: the engine
value before `1` is `1899818559`, which gives the high part `1`. -/
theorem draw_up_never_one (x : Nat) (g2 : MinstdRand) (h1 : 1 ≤ x) (h2 : x ≤ 2147483646) :
    uniformInt minstd 1 2147483647 ⟨x⟩ ≠ some (1, g2) := by
  intro h
  obtain ⟨g1, hg1, hst, hcase⟩ := draw_up_result (MinstdRand.valid_mk h1 h2) h
  rcases hcase with ⟨hle, hv⟩ | hv
  · have hx : g2.x = 1 := by omega
    have hstep : g1.step = (⟨1899818559⟩ : MinstdRand).step := by
      rw [← hst]
      cases g2 with
      | mk y =>
        simp only at hx
        rw [hx]
        decide
    have := MinstdRand.step_inj hg1 (MinstdRand.valid_mk (by norm_num) (by norm_num)) hstep
    rw [this] at hle
    simp only at hle
    omega
  · omega

/-! ## Claim on the distribution of a sample -/

/-- C8, as stated, fails at `size = 2147483647`, where a draw reads two successive
engine values: from state `1` the draw returns `182605794`, but no draw on any
generator state returns `1` (the only engine value followed by `1` is `1899818559`,
and the draw that reads it returns `2147483647`).  The value `1` is the result for
no accepted engine value, the value `182605794` for at least one. -/
theorem uniform_samples_counterexample :
    uniformInt minstd 1 2147483647 ⟨1⟩ = some (182605794, ⟨182605794⟩) ∧
      uniformInt minstd 1 2147483647 ⟨225371434⟩ = some (2147483647, ⟨1⟩) ∧
      (¬ ∃ x g2, 1 ≤ x ∧ x ≤ 2147483646 ∧
        uniformInt minstd 1 2147483647 ⟨x⟩ = some (1, g2)) ∧
      ((Finset.Icc 1 2147483646).filter (fun o : Nat => ∃ x ∈ Finset.Icc (1 : Nat) 2147483646,
        uniformInt minstd 1 2147483647 ⟨x⟩ = some (1, MinstdRand.mk o))).card = 0 ∧
      0 < ((Finset.Icc 1 2147483646).filter (fun o : Nat => ∃ x ∈ Finset.Icc (1 : Nat) 2147483646,
        uniformInt minstd 1 2147483647 ⟨x⟩ = some (182605794, MinstdRand.mk o))).card := by
  have hd : uniformInt minstd 1 2147483647 ⟨1⟩ = some (182605794, ⟨182605794⟩) := by decide
  refine ⟨hd, by decide, ?_, ?_, ?_⟩
  · rintro ⟨x, g2, h1, h2, h⟩
    exact draw_up_never_one x g2 h1 h2 h
  · rw [Finset.card_eq_zero, Finset.filter_eq_empty_iff]
    rintro o _ ⟨x, hx, h⟩
    rw [Finset.mem_Icc] at hx
    exact draw_up_never_one x _ hx.1 hx.2 h
  · apply Finset.card_pos.2
    refine ⟨182605794, Finset.mem_filter.2 ⟨Finset.mem_Icc.2 ⟨by norm_num, by norm_num⟩,
      1, Finset.mem_Icc.2 ⟨by norm_num, by norm_num⟩, hd⟩⟩

/-- C8, amended: for every `size` with `1 ≤ size ≤ 2147483646`, each sample drawn
inside `roll` (on any generator state) lies in `[1, size]` and ends on an engine
value the distribution accepts, and every value `v` of `[1, size]` is the result
of the draw for equally many accepted engine values: for `2147483645 / size` of the
engine values `1 .. 2147483646` when `size ≤ 2147483645` and for one of them when
`size = 2147483646`; the count does not depend on `v`. -/
theorem uniform_samples (size v : Int) (hs : 1 ≤ size) (hs2 : size ≤ 2147483646)
    (hv1 : 1 ≤ v) (hv2 : v ≤ size) :
    (∀ x, 1 ≤ x → x ≤ 2147483646 →
      ∃ w o, uniformInt minstd 1 size ⟨x⟩ = some (w, MinstdRand.mk o) ∧ 1 ≤ w ∧ w ≤ size ∧
        1 ≤ o ∧ o ≤ 2147483646) ∧
    ((Finset.Icc 1 2147483646).filter (fun o : Nat => ∃ x ∈ Finset.Icc (1 : Nat) 2147483646,
        uniformInt minstd 1 size ⟨x⟩ = some (v, MinstdRand.mk o))).card
      = (if size = 2147483646 then 1 else 2147483645 / size.toNat) := by
  constructor
  · intro x h1 h2
    have hg := MinstdRand.valid_mk h1 h2
    obtain ⟨j, w, _, hw1, hw2, heq⟩ := draw_spec hs (by omega) hg
    have hr := MinstdRand.valid_range (MinstdRand.valid_iterate hg j)
    exact ⟨w, (MinstdRand.step^[j] ⟨x⟩).x, heq, hw1, hw2, hr.1, hr.2⟩
  · obtain ⟨k, rfl⟩ : ∃ k : Nat, v = ((k + 1 : Nat) : Int) := ⟨(v - 1).toNat, by omega⟩
    by_cases hn : size = 2147483646
    · subst hn
      rw [if_pos rfl, Finset.filter_congr (q := fun o => attempt 2147483646 [o]
        = some (((k + 1 : Nat) : Int)))
        (fun o ho => draw_ends_iff_direct _ (Finset.mem_Icc.1 ho).1 (Finset.mem_Icc.1 ho).2)]
      exact count_direct (k + 1) (by omega) (by omega)
    · obtain ⟨n, rfl⟩ : ∃ n : Nat, size = (n : Int) := ⟨size.toNat, by omega⟩
      rw [if_neg hn, Int.toNat_ofNat]
      rw [Finset.filter_congr (q := fun o => attempt (n : Int) [o]
        = some (((k + 1 : Nat) : Int)))
        (fun o ho => draw_ends_iff_down (by omega) (by omega) _
          (Finset.mem_Icc.1 ho).1 (Finset.mem_Icc.1 ho).2)]
      exact count_down n k (by omega) (by omega) (by omega)

theorem uniform_samples_witness :
    (∀ x, 1 ≤ x → x ≤ 2147483646 →
      ∃ w o, uniformInt minstd 1 6 ⟨x⟩ = some (w, MinstdRand.mk o) ∧ 1 ≤ w ∧ w ≤ 6 ∧
        1 ≤ o ∧ o ≤ 2147483646) ∧
    ((Finset.Icc 1 2147483646).filter (fun o : Nat => ∃ x ∈ Finset.Icc (1 : Nat) 2147483646,
        uniformInt minstd 1 6 ⟨x⟩ = some (3, MinstdRand.mk o))).card
      = (if (6 : Int) = 2147483646 then 1 else 2147483645 / (6 : Int).toNat) :=
  uniform_samples 6 3 (by decide) (by decide) (by decide) (by decide)

/-! ## The accumulator along the loop of `Dice::roll` -/

/-- Running the loop for `i + j` iterations is running it for `i` iterations and
then for `j` more from the accumulator and the engine state reached. -/
theorem rollLoop_split {σ : Type} (E : Urbg σ) (size : Int) (j : Nat) :
    ∀ (i : Nat) (sum : Int) (g : σ),
      rollLoop E size (i + j) sum g
        = (rollLoop E size i sum g).bind (fun r => rollLoop E size j r.1 r.2) := by
  intro i
  induction i with
  | zero =>
    intro sum g
    rw [Nat.zero_add, rollLoop]
    rfl
  | succ i ih =>
    intro sum g
    rw [show i + 1 + j = (i + j) + 1 by omega, rollLoop_succ, rollLoop_succ]
    cases uniformInt E 1 size g with
    | none => rfl
    | some r =>
      obtain ⟨v, g1⟩ := r
      simp only [Option.some_bind, ih]

theorem rollLoop_one {σ : Type} (E : Urbg σ) (size : Int) (sum : Int) (g : σ) :
    rollLoop E size 1 sum g
      = (uniformInt E 1 size g).map (fun r => (toInt32 (sum + r.1), r.2)) := by
  rw [rollLoop_succ]
  cases uniformInt E 1 size g with
  | none => rfl
  | some r =>
    obtain ⟨v, g1⟩ := r
    simp only [Option.some_bind, Option.map_some']
    rw [rollLoop]

/-- One more iteration: the next draw is added to the accumulator. -/
theorem rollLoop_step {σ : Type} {E : Urbg σ} {size : Int} {i : Nat} {s0 sum v : Int}
    {g0 g g1 : σ} (h1 : rollLoop E size i s0 g0 = some (sum, g))
    (h2 : uniformInt E 1 size g = some (v, g1)) :
    rollLoop E size (i + 1) s0 g0 = some (toInt32 (sum + v), g1) := by
  rw [rollLoop_split, h1]
  simp only [Option.some_bind]
  rw [rollLoop_one, h2]
  rfl

/-- As long as `i * size` fits in an `int`, the accumulator after `i` iterations
started at `0` lies between `i` and `i * size`, and the engine is in a state of
the orbit of the starting state. -/
theorem loop_prefix {size : Int} (hs : 1 ≤ size) (hs2 : size ≤ 2147483647)
    {g : MinstdRand} (hg : g.Valid) (i : Nat) (hb : (i : Int) * size ≤ 2147483647) :
    ∃ sum j, rollLoop minstd size i 0 g = some (sum, MinstdRand.step^[j] g) ∧
      (i : Int) ≤ sum ∧ sum ≤ (i : Int) * size := by
  obtain ⟨vs, j, _, hlen, hvs, heq⟩ := drawSeq_spec hs hs2 i g hg
  have hl : (vs.length : Int) = (i : Int) := by rw [hlen]
  obtain ⟨ha, hb1, hb2⟩ := accumulate_exact vs 0 hvs (by norm_num) (by rw [hl]; omega)
  refine ⟨accumulate 0 vs, j, ?_, ?_, ?_⟩
  · rw [rollLoop_eq_drawSeq, heq]; rfl
  · rw [ha, ← hl]; omega
  · rw [ha, ← hl]; omega

/-! ## Claim on the running sum -/

/-- C11: for every valid generator state, `num ≥ 0` and `size ≥ 1` with
`num * size ≤ 2^31 - 1`, after `i` iterations of the loop of `roll`
(`0 ≤ i ≤ num`) the accumulator `sum` satisfies `i ≤ sum ≤ i * size` and the
remaining `num - i` iterations go on from it; the next addition `sum + v` stays
inside the range of `int`, and the loop ends after exactly `num` iterations,
`roll` returning the exact sum of the `num` draws. -/
theorem roll_no_overflow (d : Dice) (num size : Int) (hd : d.gen.Valid) (hn : 0 ≤ num)
    (hs : 1 ≤ size) (hs2 : size ≤ 2147483647) (hb : num * size ≤ 2147483647)
    (i : Nat) (hi : (i : Int) ≤ num) :
    ∃ sum g, rollLoop minstd size i 0 d.gen = some (sum, g) ∧
      (i : Int) ≤ sum ∧ sum ≤ (i : Int) * size ∧
      rollWith minstd num size d.gen = rollLoop minstd size (num.toNat - i) sum g ∧
      ((i : Int) < num → ∃ v g1, uniformInt minstd 1 size g = some (v, g1) ∧
        -2147483648 ≤ sum + v ∧ sum + v ≤ 2147483647 ∧
        rollLoop minstd size (i + 1) 0 d.gen = some (sum + v, g1)) ∧
      ∃ vs gEnd, drawSeq minstd size num.toNat d.gen = some (vs, gEnd) ∧
        (vs.length : Int) = num ∧ d.roll num size = some (vs.sum, ⟨gEnd⟩) := by
  have hsz : (0 : Int) ≤ size := by omega
  have hib : (i : Int) * size ≤ 2147483647 :=
    le_trans (mul_le_mul_of_nonneg_right hi hsz) hb
  obtain ⟨sum, j, hloop, hlo, hhi⟩ := loop_prefix hs hs2 hd i hib
  have hgi := MinstdRand.valid_iterate hd j
  refine ⟨sum, MinstdRand.step^[j] d.gen, hloop, hlo, hhi, ?_, ?_, ?_⟩
  · unfold rollWith
    rw [if_neg (by omega), show num.toNat = i + (num.toNat - i) by omega,
      rollLoop_split, hloop]
    simp only [Option.some_bind]
    rw [show i + (num.toNat - i) - i = num.toNat - i by omega]
  · intro hlt
    obtain ⟨k, v, _, hv1, hv2, hdraw⟩ := draw_spec hs hs2 hgi
    have hnext : ((i : Int) + 1) * size ≤ num * size :=
      mul_le_mul_of_nonneg_right (by omega) hsz
    have hexp : ((i : Int) + 1) * size = (i : Int) * size + size := by ring
    have hupper : sum + v ≤ 2147483647 := by omega
    have hlower : -2147483648 ≤ sum + v := by omega
    refine ⟨v, _, hdraw, hlower, hupper, ?_⟩
    exact (rollLoop_step hloop hdraw).trans (by rw [toInt32_of_range hlower hupper])
  · obtain ⟨vs, k, _, hlen, hvs, heq⟩ := drawSeq_spec hs hs2 num.toNat d.gen hd
    have hl : (vs.length : Int) = num := by rw [hlen]; omega
    obtain ⟨ha, _, _⟩ := accumulate_exact vs 0 hvs (by norm_num) (by rw [hl]; omega)
    refine ⟨vs, _, heq, hl, ?_⟩
    rw [Dice.roll_eq d num hs, heq]
    simp only [Option.map_some', ha, zero_add]

theorem roll_no_overflow_witness :
    ∃ sum g, rollLoop minstd 6 1 0 (Dice.ofSeed 42).gen = some (sum, g) ∧
      ((1 : Nat) : Int) ≤ sum ∧ sum ≤ ((1 : Nat) : Int) * 6 ∧
      rollWith minstd 2 6 (Dice.ofSeed 42).gen
        = rollLoop minstd 6 ((2 : Int).toNat - 1) sum g ∧
      (((1 : Nat) : Int) < 2 → ∃ v g1, uniformInt minstd 1 6 g = some (v, g1) ∧
        -2147483648 ≤ sum + v ∧ sum + v ≤ 2147483647 ∧
        rollLoop minstd 6 (1 + 1) 0 (Dice.ofSeed 42).gen = some (sum + v, g1)) ∧
      ∃ vs gEnd, drawSeq minstd 6 (2 : Int).toNat (Dice.ofSeed 42).gen = some (vs, gEnd) ∧
        (vs.length : Int) = 2 ∧ (Dice.ofSeed 42).roll 2 6 = some (vs.sum, ⟨gEnd⟩) :=
  roll_no_overflow (Dice.ofSeed 42) 2 6 (by decide) (by decide) (by decide) (by decide)
    (by decide) 1 (by decide)

/-! ## Claims on seeding and on the generator-state invariant -/

theorem MinstdRand.seed_add_modulus (s : Nat) :
    MinstdRand.seed (s + 2147483647) = MinstdRand.seed s := by
  unfold MinstdRand.seed
  rw [show modulus = 2147483647 from rfl, Nat.add_mod_right]

theorem MinstdRand.valid_iff (g : MinstdRand) :
    g.Valid ↔ 1 ≤ g.x ∧ g.x ≤ 2147483646 := by
  unfold MinstdRand.Valid
  rw [show modulus = 2147483647 from rfl]
  omega

/-- Every state of an instance along a sequence of calls with valid sizes is a
valid generator state. -/
theorem Dice.history_valid : ∀ (calls : List (Int × Int)) (d : Dice), d.gen.Valid →
    (∀ c ∈ calls, 1 ≤ c.2 ∧ c.2 ≤ 2147483647) →
    ∃ states, d.history calls = some states ∧ ∀ x ∈ states, x.gen.Valid := by
  intro calls
  induction calls with
  | nil =>
    intro d hd _
    refine ⟨[d], rfl, fun x hx => ?_⟩
    rw [List.mem_singleton.1 hx]
    exact hd
  | cons c rest ih =>
    intro d hd hc
    have h1 := hc c (List.mem_cons_self _ _)
    obtain ⟨v, d1, hv, hd1⟩ := Dice.roll_total d c.1 h1.1 h1.2 hd
    obtain ⟨states, hst, hall⟩ := ih d1 hd1 (fun c2 hc2 => hc c2 (List.mem_cons_of_mem _ hc2))
    refine ⟨d :: states, ?_, fun x hx => ?_⟩
    · rw [Dice.history_cons, hv]
      simp only [Option.some_bind, hst, Option.map_some']
    · rcases List.mem_cons.1 hx with h | h
      · rw [h]; exact hd
      · exact hall x h

/-- From the state `0` the rejection loop never accepts a value: the engine keeps
producing `0`, below its minimum `1`. -/
theorem rejectLoop_zero_state (past : Nat) (hp : past ≤ 18446744073709551615) :
    ∀ fuel : Nat, rejectLoop minstd past fuel ⟨0⟩ = none := by
  have hret : usub (minstd.call ⟨0⟩).1 minstd.min = 18446744073709551615 := by decide
  have hnext : (minstd.call ⟨0⟩).2 = ⟨0⟩ := by decide
  intro fuel
  induction fuel with
  | zero => rw [rejectLoop]
  | succ fuel ih => rw [rejectLoop, hret, if_pos hp, hnext, ih]

/-- On the state `0` a draw of `dist(1, size)` with `size ≤ 2147483645` does not
return. -/
theorem draw_zero_state {size : Int} (h1 : 1 ≤ size) (h2 : size ≤ 2147483645) :
    uniformInt minstd 1 size ⟨0⟩ = none := by
  obtain ⟨n, rfl⟩ : ∃ n : Nat, size = (n : Int) := ⟨size.toNat, by omega⟩
  have hur : usub (toU64 (n : Int)) (toU64 1) = n - 1 := by
    rw [toU64_of_nonneg (by omega) (by omega), toU64_of_nonneg (by omega) (by omega)]
    simp only [Int.toNat_ofNat, Int.toNat_one]
    exact usub_of_le (by omega) (by omega)
  have hpast : n * (2147483645 / n) ≤ 18446744073709551615 :=
    le_trans (Nat.mul_div_le _ _) (by norm_num)
  unfold uniformInt
  rw [uniformIntAux_down _ _ _ _ _ _ (by rw [hur, minstd_max, minstd_min]; omega)]
  rw [hur, minstd_max, minstd_min]
  have e1 : n - 1 + 1 = n := by omega
  have e2 : 2147483646 - 1 = 2147483645 := by norm_num
  rw [e1, e2, rejectLoop_zero_state _ hpast]
  rfl

/-- C12: construction is not injective in the seed.  The engine keeps the seed
modulo `2147483647`, with `1` in place of a zero residue, so `Dice(0)` and
`Dice(1)` start in the same generator state, and so do `Dice(s)` and
`Dice(s + 2147483647)` whenever `s + 2147483647 < 2^32`; such instances return
identical roll results for every sequence of arguments. -/
theorem seed_collisions (s : Nat) (hs : s + 2147483647 < 4294967296)
    (calls : List (Int × Int)) :
    (Dice.ofSeed s).gen.x = (if s % 2147483647 = 0 then 1 else s % 2147483647) ∧
      Dice.ofSeed 0 = Dice.ofSeed 1 ∧
      Dice.ofSeed s = Dice.ofSeed (s + 2147483647) ∧
      (Dice.ofSeed 0).rolls calls = (Dice.ofSeed 1).rolls calls ∧
      (Dice.ofSeed s).rolls calls = (Dice.ofSeed (s + 2147483647)).rolls calls ∧
      ¬ Function.Injective Dice.ofSeed := by
  have h01 : Dice.ofSeed 0 = Dice.ofSeed 1 := by decide
  have hsm : Dice.ofSeed s = Dice.ofSeed (s + 2147483647) := by
    unfold Dice.ofSeed
    rw [Nat.mod_eq_of_lt hs, Nat.mod_eq_of_lt (by omega), MinstdRand.seed_add_modulus]
  refine ⟨?_, h01, hsm, by rw [h01], by rw [hsm], fun hinj => ?_⟩
  · have e : s % 4294967296 = s := Nat.mod_eq_of_lt (by omega)
    unfold Dice.ofSeed
    rw [e]
    unfold MinstdRand.seed
    rw [show modulus = 2147483647 from rfl]
    by_cases h : s % 2147483647 = 0
    · rw [if_pos h, if_pos h]
    · rw [if_neg h, if_neg h]
  · exact absurd (hinj h01) (by decide)

theorem seed_collisions_witness :
    (Dice.ofSeed 5).gen.x = (if 5 % 2147483647 = 0 then 1 else 5 % 2147483647) ∧
      Dice.ofSeed 0 = Dice.ofSeed 1 ∧
      Dice.ofSeed 5 = Dice.ofSeed (5 + 2147483647) ∧
      (Dice.ofSeed 0).rolls [(2, 6)] = (Dice.ofSeed 1).rolls [(2, 6)] ∧
      (Dice.ofSeed 5).rolls [(2, 6)] = (Dice.ofSeed (5 + 2147483647)).rolls [(2, 6)] ∧
      ¬ Function.Injective Dice.ofSeed :=
  seed_collisions 5 (by decide) [(2, 6)]

/-- C13: for every seed the generator state of a `Dice` is in `[1, 2147483646]`
right after construction; every call `roll(num, size)` with `size ≥ 1` on a state
of that range returns and leaves a state of that range, so every state reached
along a sequence of calls is in the range and none is `0`, which is a fixed point
of the engine. -/
theorem state_invariant (seed : Nat) (d : Dice) (num size : Int)
    (calls : List (Int × Int)) (hd : 1 ≤ d.gen.x ∧ d.gen.x ≤ 2147483646)
    (hs : 1 ≤ size) (hs2 : size ≤ 2147483647)
    (hc : ∀ c ∈ calls, 1 ≤ c.2 ∧ c.2 ≤ 2147483647) :
    (1 ≤ (Dice.ofSeed seed).gen.x ∧ (Dice.ofSeed seed).gen.x ≤ 2147483646) ∧
      (∃ v d1, d.roll num size = some (v, d1) ∧
        1 ≤ d1.gen.x ∧ d1.gen.x ≤ 2147483646) ∧
      (∃ states, (Dice.ofSeed seed).history calls = some states ∧
        ∀ x ∈ states, 1 ≤ x.gen.x ∧ x.gen.x ≤ 2147483646 ∧ x.gen.x ≠ 0) ∧
      (∀ k, MinstdRand.step^[k] ⟨0⟩ = ⟨0⟩) := by
  refine ⟨(MinstdRand.valid_iff _).1 (Dice.ofSeed_valid seed), ?_, ?_, ?_⟩
  · obtain ⟨v, d1, hv, hd1⟩ :=
      Dice.roll_total d num hs hs2 ((MinstdRand.valid_iff _).2 hd)
    exact ⟨v, d1, hv, (MinstdRand.valid_iff _).1 hd1⟩
  · obtain ⟨states, hst, hall⟩ :=
      Dice.history_valid calls (Dice.ofSeed seed) (Dice.ofSeed_valid seed) hc
    refine ⟨states, hst, fun x hx => ?_⟩
    have := (MinstdRand.valid_iff _).1 (hall x hx)
    exact ⟨this.1, this.2, by omega⟩
  · intro k
    induction k with
    | zero => rfl
    | succ k ih =>
      rw [Function.iterate_succ_apply', ih]
      rfl

theorem state_invariant_witness :
    (1 ≤ (Dice.ofSeed 0).gen.x ∧ (Dice.ofSeed 0).gen.x ≤ 2147483646) ∧
      (∃ v d1, (Dice.ofSeed 42).roll 2 6 = some (v, d1) ∧
        1 ≤ d1.gen.x ∧ d1.gen.x ≤ 2147483646) ∧
      (∃ states, (Dice.ofSeed 0).history [(2, 6), (1, 20)] = some states ∧
        ∀ x ∈ states, 1 ≤ x.gen.x ∧ x.gen.x ≤ 2147483646 ∧ x.gen.x ≠ 0) ∧
      (∀ k, MinstdRand.step^[k] ⟨0⟩ = ⟨0⟩) :=
  state_invariant 0 (Dice.ofSeed 42) 2 6 [(2, 6), (1, 20)] (by decide) (by decide)
    (by decide) (by decide)

end DiceModel
